import Mathlib

/-!
Shallow embedding of the subscription-detection core of the Subtracker
backend (`src/backend/detection.py`, data model from `src/backend/models.py`),
together with proofs settling the frozen claims about it.

Modelling conventions:
* Python `str` is Lean `String` (a structure over `List Char`); Python's
  `str.lower` is modelled by `Char.toLower` (ASCII letters only) and the
  regex class `\s` by the six ASCII whitespace characters, which is the
  fragment the detection code exercises.
* Python `float` amounts and confidences are modelled as `ℚ`.  Rational
  arithmetic is written with kernel-reducible helpers (`Rat.divInt`-based)
  so that concrete runs evaluate by `decide`; bridge lemmas identify the
  helpers with Mathlib's field operations.
* Calendar dates are modelled by their day numbers (days since 1970-01-01,
  the standard civil-calendar conversion), so `(d1 - d2).days` is plain
  integer subtraction and `timedelta(days = k)` is `+ k`.
* The SQLAlchemy session is modelled as an explicit record `DB` of the
  three tables plus autoincrement counters; `datetime.utcnow()` is the
  explicit run-time parameter `now` (one run happens at one instant).
* `Query.one_or_none()` is modelled by `List.find?`; the schema's unique
  constraints that make the two coincide appear as `WF` hypotheses where a
  theorem needs them.
-/

/-- The six ASCII whitespace characters, the ASCII fragment of Python's
regex class `\s` and of `str.strip`'s default character set. -/
def pyIsSpace (c : Char) : Bool :=
  c = ' ' || c = '\t' || c = '\n' || c = '\r' || c = '\x0b' || c = '\x0c'

/-- Python `str.strip()` (ASCII fragment): drop whitespace from both ends. -/
def pyStrip (l : List Char) : List Char :=
  ((l.dropWhile pyIsSpace).reverse.dropWhile pyIsSpace).reverse

/-- Python `re.sub(r"\s+", " ", ·)` (ASCII fragment): replace every maximal
run of whitespace by a single space. -/
def collapseWs : List Char → List Char
  | [] => []
  | c :: cs =>
    if pyIsSpace c then
      match cs with
      | [] => [' ']
      | c2 :: cs2 =>
        if pyIsSpace c2 then collapseWs (c2 :: cs2) else ' ' :: collapseWs (c2 :: cs2)
    else c :: collapseWs cs

/-- Python `str.lower()` (ASCII fragment), on a character list. -/
def pyLowerList (l : List Char) : List Char := l.map Char.toLower

/-- Python `str.lower()` (ASCII fragment), on a string. -/
def pyLower (s : String) : String := ⟨pyLowerList s.data⟩

/-- Python `str.upper()` (ASCII fragment), on a string. -/
def pyUpper (s : String) : String := ⟨s.data.map Char.toUpper⟩

/-- Model of `detection._norm`: `re.sub(r"\s+", " ", (s or "").strip().lower())`.
The argument is `Option String` because call sites pass values that may be
Python `None` (`s or ""` turns `None` and `""` into `""`). -/
def pyNorm (s : Option String) : String :=
  ⟨collapseWs (pyLowerList (pyStrip (s.getD "").data))⟩

/-- Substring test `needle in hay` for Python strings, on character lists:
true iff `needle` occurs contiguously inside `hay`. -/
def hasSubList : List Char → List Char → Bool
  | _, [] => true
  | [], _ :: _ => false
  | c :: cs, needle => (needle.isPrefixOf (c :: cs)) || hasSubList cs needle

/-- Substring test `needle in hay` for Python strings. -/
def hasSub (hay needle : String) : Bool := hasSubList hay.data needle.data

/-- Model of `detection.NAME_BLACKLIST`: name-based noise, matched as lowercase
substrings. -/
def NAME_BLACKLIST : List String :=
  ["starbucks", "mcdonald", "kfc",
   "credit card", "intrst pymnt", "automatic payment",
   "ach electronic credit", "cd deposit", "gusto pay",
   "payroll", "deposit", "thank", "atm", "pos", "gas"]

/-- Model of `detection.PFC_PRIMARY_EXCLUDE`: Plaid personal-finance categories to
exclude when present in `tx.raw`. -/
def PFC_PRIMARY_EXCLUDE : List String :=
  ["INCOME", "TRANSFER_IN", "TRANSFER_OUT", "LOAN_PAYMENTS", "BANK_FEES", "SAVINGS"]

/-- Model of `detection.WINDOW_DAYS`. -/
def WINDOW_DAYS : Int := 150

/-- Is `y` a Gregorian leap year (as Python's `datetime` validates dates)? -/
def isLeap (y : Nat) : Bool := (y % 4 = 0 && y % 100 ≠ 0) || y % 400 = 0

/-- Number of days in month `m` of year `y` (Python `datetime` validation). -/
def daysInMonth (y m : Nat) : Nat :=
  if m = 2 then (if isLeap y then 29 else 28)
  else if m = 4 || m = 6 || m = 9 || m = 11 then 30
  else 31

/-- Day number of the civil date `y-m-d` (days since 1970-01-01), for years
`1 ≤ y`; the standard days-from-civil conversion.  Models the subtraction of
Python `datetime.date` objects: `(a - b).days = daysFromCivil a - daysFromCivil b`. -/
def daysFromCivil (y m d : Nat) : Int :=
  let y' : Nat := if m ≤ 2 then y - 1 else y
  let era : Nat := y' / 400
  let yoe : Nat := y' % 400
  let mp : Nat := (m + 9) % 12
  let doy : Nat := (153 * mp + 2) / 5 + d - 1
  let doe : Nat := yoe * 365 + yoe / 4 - yoe / 100 + doy
  (era * 146097 + doe : Int) - 719468

/-- Inverse of `daysFromCivil` (days-to-civil), used to render
`date.isoformat()` of a computed date.  Valid for day numbers at or after
year 1 of the proleptic Gregorian calendar. -/
def civilFromDays (z : Int) : Nat × Nat × Nat :=
  let n : Nat := (z + 719468).toNat
  let era : Nat := n / 146097
  let doe : Nat := n % 146097
  let yoe : Nat := (doe - doe / 1460 + doe / 36524 - doe / 146096) / 365
  let y : Nat := yoe + era * 400
  let doy : Nat := doe - (365 * yoe + yoe / 4 - yoe / 100)
  let mp : Nat := (5 * doy + 2) / 153
  let d : Nat := doy - (153 * mp + 2) / 5 + 1
  let m : Nat := if mp < 10 then mp + 3 else mp - 9
  (if m ≤ 2 then y + 1 else y, m, d)

/-- Left-pad a decimal rendering with zeroes to width `w`. -/
def padZeroes (w : Nat) (n : Nat) : String :=
  let s := toString n
  ⟨List.replicate (w - s.length) '0' ++ s.data⟩

/-- Rendering `date.isoformat()` of the date with the given day number:
`YYYY-MM-DD` with a zero-padded four-digit year. -/
def isoOfDays (z : Int) : String :=
  let c := civilFromDays z
  padZeroes 4 c.1 ++ "-" ++ padZeroes 2 c.2.1 ++ "-" ++ padZeroes 2 c.2.2

/-- Decimal value of a digit character. -/
def digitVal (c : Char) : Nat := c.toNat - 48

/-- Parse the 1-or-2-digit month/day field of `strptime`'s `%m`/`%d`
(regex `1[0-2]|0[1-9]|[1-9]` resp. `3[01]|[12]\d|0[1-9]|[1-9]` followed by
the next literal): greedily take two digits if their value is in
`[1, hi]`, else one nonzero digit.  Returns the value and the rest. -/
def parseField (hi : Nat) : List Char → Option (Nat × List Char)
  | [] => none
  | c1 :: rest =>
    if c1.isDigit then
      match rest with
      | c2 :: rest2 =>
        if c2.isDigit then
          let v := 10 * digitVal c1 + digitVal c2
          if 1 ≤ v ∧ v ≤ hi then some (v, rest2) else none
        else if 1 ≤ digitVal c1 then some (digitVal c1, rest) else none
      | [] => if 1 ≤ digitVal c1 then some (digitVal c1, []) else none
    else none

/-- Model of `datetime.strptime(s, "%Y-%m-%d")`, returning the day number of the
parsed date (or `none` where Python raises `ValueError`): exactly four
digits of year, dash, 1-2 digit month in `[1,12]`, dash, 1-2 digit day in
`[1,31]`, end of string; then calendar validation (`day ≤ daysInMonth`,
year ≥ 1). -/
def parseDateDays (s : String) : Option Int :=
  match s.data with
  | y1 :: y2 :: y3 :: y4 :: '-' :: rest =>
    if y1.isDigit && y2.isDigit && y3.isDigit && y4.isDigit then
      let y := 1000 * digitVal y1 + 100 * digitVal y2 + 10 * digitVal y3 + digitVal y4
      if 1 ≤ y then
        match parseField 12 rest with
        | some (m, '-' :: rest2) =>
          match parseField 31 rest2 with
          | some (d, []) =>
            if d ≤ daysInMonth y m then some (daysFromCivil y m d) else none
          | _ => none
        | _ => none
      else none
    else none
  | _ => none

/-- Kernel-reducible model of float subtraction on `ℚ` (`Rat.sub` is
irreducible; this form evaluates by `decide`). -/
def qsub (a b : ℚ) : ℚ := Rat.divInt (a.num * b.den - b.num * a.den) (a.den * b.den)

/-- Kernel-reducible model of float division on `ℚ`. -/
def qdiv (a b : ℚ) : ℚ := Rat.divInt (a.num * b.den) (a.den * b.num)

/-- Kernel-reducible model of float `abs` on `ℚ`. -/
def qabs (a : ℚ) : ℚ := Rat.divInt a.num.natAbs a.den

/-- Insert into a sorted list of rationals (ascending); `Python list.sort()`
on numbers. -/
def insertQ (a : ℚ) : List ℚ → List ℚ
  | [] => [a]
  | b :: bs => if a ≤ b then a :: b :: bs else b :: insertQ a bs

/-- Python `list.sort()` on a list of numbers (ascending insertion sort). -/
def sortQ : List ℚ → List ℚ
  | [] => []
  | a :: as' => insertQ a (sortQ as')

/-- Model of `detection._amounts_consistent`.  The input models the Python list of
`it.amount` values: `none` is a non-numeric entry (SQL `NULL`), filtered
out by the `isinstance` check.

```
amts = [a for a in amts if isinstance(a, (int, float))]
if len(amts) < 3: return True
amts.sort()
mid = amts[len(amts)//2]
if mid == 0: return True
spread = max(abs(a - mid) for a in amts)
return (spread <= 5.0) or (spread / abs(mid) <= 0.25)
```
-/
def amountsConsistent (amtsIn : List (Option ℚ)) : Bool :=
  let amts := amtsIn.filterMap id
  if amts.length < 3 then true
  else
    let sorted := sortQ amts
    let mid := sorted.getD (amts.length / 2) 0
    if mid = 0 then true
    else
      let spread := ((sorted.map (fun a => qabs (qsub a mid))).max?).getD 0
      decide (spread ≤ 5) || decide (qdiv spread (qabs mid) ≤ mkRat 1 4)

/-- A row of the `transactions` table (`models.Transaction`), restricted to
the fields the detection core reads or writes.  The JSON column `raw` is
represented by the two values the core extracts from it:
`raw.get("name")` and `raw.get("personal_finance_category").get("primary")`
(`none` covers a missing key, an explicit `null`, and a missing `raw`). -/
structure Txn where
  id : Nat
  vendor_id : Option Nat
  plaid_txn_id : Option String
  merchant_name : Option String
  amount : Option ℚ
  iso_currency_code : Option String
  date : Option String
  rawName : Option String
  rawPfcPrimary : Option String
  deriving DecidableEq, Repr

/-- A row of the `vendors` table (`models.Vendor`). -/
structure Vendor where
  id : Nat
  name : String
  descriptors_regex : Option String
  deriving DecidableEq, Repr

/-- A row of the `subscriptions` table (`models.Subscription`).  Timestamps
(`first_seen`, `last_seen`) are day numbers like dates. -/
structure Subscription where
  id : Nat
  vendor_id : Option Nat
  status : String
  interval : Option String
  confidence : ℚ
  first_seen : Int
  last_seen : Int
  next_expected : Option String
  deriving DecidableEq, Repr

/-- The persisted state the detection run reads and writes: the three
tables plus the autoincrement counters that hand out fresh primary keys. -/
structure DB where
  txns : List Txn
  vendors : List Vendor
  subs : List Subscription
  nextVendorId : Nat
  nextSubId : Nat
  deriving DecidableEq, Repr

/-- Model of `detection._is_noise`:
`n = _norm(tx.merchant_name or (tx.raw or {}).get("name", ""))`, blacklist
substring test, then the personal-finance-category exclusion. -/
def isNoiseTx (t : Txn) : Bool :=
  let nameArg : String :=
    match t.merchant_name with
    | some s => if s = "" then t.rawName.getD "" else s
    | none => t.rawName.getD ""
  let n := pyNorm (some nameArg)
  if NAME_BLACKLIST.any (fun b => hasSub n b) then true
  else
    let primary := pyUpper (t.rawPfcPrimary.getD "")
    if primary ∈ PFC_PRIMARY_EXCLUDE then true else false

/-- The date-window-and-noise filter of the grouping loop: a record is kept
iff its date is truthy, parses as `%Y-%m-%d`, is not before `since`, and
the record is not noise (the loop `continue`s otherwise). -/
def keepRecord (since : Int) (t : Txn) : Bool :=
  (match t.date with
   | none => false
   | some d =>
     if d = "" then false
     else
       match parseDateDays d with
       | none => false
       | some n => decide (since ≤ n))
  && !(isNoiseTx t)

/-- Append `t` to the group of key `key`, creating the group at the end on
first sight of the key — the insertion-order behaviour of
`defaultdict(list)` under `groups[key].append(t)`. -/
def addToGroups (gs : List (String × List Txn)) (key : String) (t : Txn) :
    List (String × List Txn) :=
  match gs with
  | [] => [(key, [t])]
  | (k, l) :: rest =>
    if k = key then (k, l ++ [t]) :: rest else (k, l) :: addToGroups rest key t

/-- The grouping loop: partition the kept records by normalized merchant
name, preserving insertion order of both keys and members. -/
def buildGroups (txns : List Txn) : List (String × List Txn) :=
  txns.foldl (fun gs t => addToGroups gs (pyNorm t.merchant_name) t) []

/-- Sort key of `items.sort(key=lambda x: x.date or "")`. -/
def dateKey (t : Txn) : String := t.date.getD ""

/-- Python string `<=` (lexicographic by code point), kernel-reducible. -/
def charListLe : List Char → List Char → Bool
  | [], _ => true
  | _ :: _, [] => false
  | a :: as', b :: bs => if a.toNat < b.toNat then true
      else if b.toNat < a.toNat then false else charListLe as' bs

/-- Stable insertion into a list sorted by date key; together with
`sortByDate` this is extensionally Python's stable `list.sort(key=...)`. -/
def insertByDate (t : Txn) : List Txn → List Txn
  | [] => [t]
  | u :: us =>
    if charListLe (dateKey t).data (dateKey u).data then t :: u :: us
    else u :: insertByDate t us

/-- Python `items.sort(key=lambda x: x.date or "")` (stable, ascending). -/
def sortByDate : List Txn → List Txn
  | [] => []
  | t :: ts => insertByDate t (sortByDate ts)

/-- Consecutive gaps in days:
`[(dates[i] - dates[i-1]).days for i in range(1, len(dates))]`. -/
def gapDiffs (dates : List Int) : List Int :=
  (dates.zip dates.tail).map (fun p => p.2 - p.1)

/-- Model of `avg = sum(diffs) / len(diffs)` as an exact rational (the float mean of
a list of small integer day gaps; the comparison against the integer bounds
27 and 33 is exact in both models). -/
def avgGap (diffs : List Int) : ℚ := Rat.divInt diffs.sum diffs.length

/-- Test `27 <= avg <= 33`: the monthly tolerance band. -/
def inMonthlyBand (diffs : List Int) : Bool :=
  decide ((27 : ℚ) ≤ avgGap diffs) && decide (avgGap diffs ≤ (33 : ℚ))

/-- Everything the merge step of one qualifying group needs from the
group's records: the display name used to upsert the vendor, the ids of the
group's records (to link them), and the computed `next_expected` string. -/
structure MergePlan where
  display : String
  itemIds : List Nat
  nextExpected : String
  deriving DecidableEq, Repr

/-- The pure decision part of the per-group loop body in
`detect_basic_subscriptions` (everything before the first database write,
in source order): size gate, display name, stable sort by date, parseable
dates, amount consistency, gap list, monthly band.  Returns the merge plan
of a qualifying group, `none` where the loop `continue`s. -/
def groupPlan (g : String × List Txn) : Option MergePlan :=
  let norm_merchant := g.1
  let items := g.2
  if items.length < 3 then none
  else
    let merchant_display :=
      (((items.find? fun it =>
          match it.merchant_name with
          | some s => !(s = "")
          | none => false)).bind (fun it => it.merchant_name)).getD norm_merchant
    let sorted := sortByDate items
    let dates := sorted.filterMap (fun it => it.date.bind parseDateDays)
    if dates.length < 3 then none
    else if !(amountsConsistent (sorted.map (fun it => it.amount))) then none
    else
      let diffs := gapDiffs dates
      if diffs = [] then none
      else if inMonthlyBand diffs then
        let last_dt := (dates.max?).getD 0
        some ⟨merchant_display, sorted.map (fun it => it.id), isoOfDays (last_dt + 30)⟩
      else none

/-- The per-record linking step,
`if it.vendor_id != vendor.id: it.vendor_id = vendor.id`, applied to the
records whose ids are in the plan (the group's records). -/
def linkTo (vid : Nat) (ids : List Nat) (t : Txn) : Txn :=
  if t.id ∈ ids then
    (if t.vendor_id ≠ some vid then { t with vendor_id := some vid } else t)
  else t

/-- The freshly created subscription row:
`Subscription(vendor_id=…, status="inferred", interval="monthly",
confidence=0.7, next_expected=…)` with `first_seen`/`last_seen` defaulting
to the run instant (`last_seen` is then assigned `utcnow()` explicitly). -/
def newSubRow (now : Int) (vid : Nat) (sid : Nat) (nextExp : String) : Subscription :=
  ⟨sid, some vid, "inferred", some "monthly", mkRat 7 10, now, now, some nextExp⟩

/-- The update of the existing subscription row:
`interval = "monthly"; confidence = max(confidence, 0.7);
next_expected = …; last_seen = utcnow()` (status untouched). -/
def updSubRow (now : Int) (nextExp : String) (s : Subscription) : Subscription :=
  { s with interval := some "monthly", confidence := max s.confidence (mkRat 7 10),
           next_expected := some nextExp, last_seen := now }

/-- Mutating the one subscription row with the given primary key (the row
`one_or_none()` returned) inside the table. -/
def updSubs (now : Int) (nextExp : String) (targetId : Nat)
    (subs : List Subscription) : List Subscription :=
  subs.map (fun s => if s.id = targetId then updSubRow now nextExp s else s)

/-- Linking and subscription upsert against a resolved vendor: point the
group's transactions at `v`, then find the subscription by `vendor_id`
(`one_or_none()` is `List.find?`), creating or updating it. -/
def mergeWithVendor (now : Int) (db : DB) (v : Vendor) (p : MergePlan) : DB :=
  let txns' := db.txns.map (linkTo v.id p.itemIds)
  match db.subs.find? (fun s => s.vendor_id = some v.id) with
  | none =>
    ⟨txns', db.vendors, db.subs ++ [newSubRow now v.id db.nextSubId p.nextExpected],
      db.nextVendorId, db.nextSubId + 1⟩
  | some s0 =>
    ⟨txns', db.vendors, updSubs now p.nextExpected s0.id db.subs,
      db.nextVendorId, db.nextSubId⟩

/-- The state-writing part of the per-group loop body, given the plan of a
qualifying group: upsert the vendor (case-insensitive name lookup via
`one_or_none()`; if absent, create it with a fresh id — the `flush()`),
then link the group's transactions and upsert the subscription. -/
def applyMerge (now : Int) (db : DB) (p : MergePlan) : DB :=
  match db.vendors.find? (fun v => pyLower v.name = pyLower p.display) with
  | some v => mergeWithVendor now db v p
  | none =>
    let v : Vendor := ⟨db.nextVendorId, p.display, none⟩
    mergeWithVendor now
      ⟨db.txns, db.vendors ++ [v], db.subs, db.nextVendorId + 1, db.nextSubId⟩ v p

/-- One iteration of the per-group loop: decide, then merge if qualifying. -/
def processGroup (now : Int) (db : DB) (g : String × List Txn) : DB :=
  match groupPlan g with
  | none => db
  | some p => applyMerge now db p

/-- Model of `detection.detect_basic_subscriptions(db)` as a state transformer, with
the run instant `datetime.utcnow()` as the explicit parameter `now`:
load the transactions with a non-null merchant name (early return if none),
filter by date window and noise, group by normalized merchant, then run the
per-group loop.  (`db.commit()` persists the session state; the model's
state is the committed state.) -/
def detect_basic_subscriptions (db : DB) (now : Int) : DB :=
  let txns := db.txns.filter (fun t => t.merchant_name.isSome)
  if txns = [] then db
  else
    let since := now - WINDOW_DAYS
    let eligible := txns.filter (keepRecord since)
    let groups := buildGroups eligible
    groups.foldl (fun acc g => processGroup now acc g) db

/-- The summary shape the specification's orchestrator contract
(`runDetection -> DetectionResult{groupsConsidered, subscriptionsUpserted}`)
describes. -/
structure DetectionResult where
  groupsConsidered : Nat
  subscriptionsUpserted : Nat
  deriving DecidableEq, Repr

/-- The return value of `detect_basic_subscriptions`: the Python function
returns `None` on every path (the early `return` and the implicit
fall-through), never a summary object. -/
def detectReturn (db : DB) (now : Int) : Option DetectionResult := none

/-! ### Bridge lemmas: the kernel-reducible rational helpers agree with
Mathlib's field operations on `ℚ`. -/

theorem qsub_eq (a b : ℚ) : qsub a b = a - b := by
  have hda : (a.den : ℤ) ≠ 0 := Int.natCast_ne_zero.mpr a.den_nz
  have hdb : (b.den : ℤ) ≠ 0 := Int.natCast_ne_zero.mpr b.den_nz
  have h : a - b = Rat.divInt a.num (a.den : ℤ) + Rat.divInt (-b.num) (b.den : ℤ) := by
    rw [← Rat.neg_divInt, Rat.num_divInt_den, Rat.num_divInt_den, sub_eq_add_neg]
  rw [qsub, h, Rat.divInt_add_divInt _ _ hda hdb]
  congr 1
  ring

theorem qdiv_eq (a b : ℚ) : qdiv a b = a / b := by
  have h : a / b = Rat.divInt a.num (a.den : ℤ) * Rat.divInt (b.den : ℤ) b.num := by
    rw [Rat.num_divInt_den, ← Rat.inv_def', div_eq_mul_inv]
  rw [qdiv, h, Rat.divInt_mul_divInt']

theorem qabs_eq (a : ℚ) : qabs a = |a| := by
  rcases le_or_lt 0 a with h | h
  · have hnum : (0 : ℤ) ≤ a.num := Rat.num_nonneg.mpr h
    have : (a.num.natAbs : ℤ) = a.num := Int.natAbs_of_nonneg hnum
    rw [qabs, abs_of_nonneg h]
    rw [show ((a.num.natAbs : ℤ)) = a.num from this, Rat.num_divInt_den]
  · have hnum : a.num < 0 := Rat.num_neg.mpr h
    have : (a.num.natAbs : ℤ) = -a.num := Int.ofNat_natAbs_of_nonpos (le_of_lt hnum)
    rw [qabs, abs_of_neg h]
    rw [show ((a.num.natAbs : ℤ)) = -a.num from this, ← Rat.neg_divInt, Rat.num_divInt_den]

theorem avgGap_eq (diffs : List Int) :
    avgGap diffs = (diffs.sum : ℚ) / (diffs.length : ℚ) := by
  rw [avgGap, Rat.divInt_eq_div]
  norm_cast

/-! ### Sorting amounts: `sortQ` is Mathlib's insertion sort, hence a
sorted permutation of its input. -/

theorem insertQ_eq_orderedInsert (a : ℚ) (l : List ℚ) :
    insertQ a l = List.orderedInsert (· ≤ ·) a l := by
  induction l with
  | nil => rfl
  | cons b bs ih => simp [insertQ, List.orderedInsert, ih]

theorem sortQ_eq_insertionSort (l : List ℚ) :
    sortQ l = List.insertionSort (· ≤ ·) l := by
  induction l with
  | nil => rfl
  | cons a as' ih => simp [sortQ, List.insertionSort, ih, insertQ_eq_orderedInsert]

theorem sortQ_perm (l : List ℚ) : (sortQ l).Perm l := by
  rw [sortQ_eq_insertionSort]; exact List.perm_insertionSort _ l

theorem sortQ_sorted (l : List ℚ) : (sortQ l).Sorted (· ≤ ·) := by
  rw [sortQ_eq_insertionSort]; exact List.sorted_insertionSort _ l

/-! ### Claim C6: the amount-consistency check. -/

/-- C6: `_amounts_consistent` filters out non-numeric entries; with fewer
than 3 numeric values it returns true; otherwise, with `mid` the middle
element (index `len // 2`) of the ascending sort of the values, it returns
true if `mid = 0`, and otherwise returns true iff
`spread ≤ 5` or `spread / |mid| ≤ 0.25`, where
`spread = max |a - mid|` over the values.  The first conjunct certifies
that `sortQ` really is the ascending sort of the numeric values. -/
theorem amounts_consistent_spec (amtsIn : List (Option ℚ)) :
    ((sortQ (amtsIn.filterMap id)).Perm (amtsIn.filterMap id)
      ∧ (sortQ (amtsIn.filterMap id)).Sorted (· ≤ ·))
    ∧ (amountsConsistent amtsIn = true ↔
        ((amtsIn.filterMap id).length < 3 ∨
         (sortQ (amtsIn.filterMap id)).getD ((amtsIn.filterMap id).length / 2) 0 = 0 ∨
         ((((sortQ (amtsIn.filterMap id)).map
              (fun a => |a - (sortQ (amtsIn.filterMap id)).getD
                ((amtsIn.filterMap id).length / 2) 0|)).max?).getD 0 ≤ 5 ∨
          ((((sortQ (amtsIn.filterMap id)).map
              (fun a => |a - (sortQ (amtsIn.filterMap id)).getD
                ((amtsIn.filterMap id).length / 2) 0|)).max?).getD 0) /
            |(sortQ (amtsIn.filterMap id)).getD ((amtsIn.filterMap id).length / 2) 0| ≤ 1 / 4))) := by
  refine ⟨⟨sortQ_perm _, sortQ_sorted _⟩, ?_⟩
  simp only [amountsConsistent]
  by_cases h3 : (amtsIn.filterMap id).length < 3
  · simp [h3]
  · simp only [h3, if_false, iff_false, false_or]
    by_cases hmid : (sortQ (amtsIn.filterMap id)).getD ((amtsIn.filterMap id).length / 2) 0 = 0
    · rw [if_pos hmid]
      exact iff_of_true rfl (Or.inl hmid)
    · simp only [hmid, if_false, false_or]
      have hq : mkRat 1 4 = (1 / 4 : ℚ) := by
        rw [Rat.mkRat_eq_divInt, Rat.divInt_eq_div]; norm_num
      simp only [qabs_eq, qsub_eq, qdiv_eq, hq, Bool.or_eq_true, decide_eq_true_eq]

/-! ### Character-level facts about the ASCII `lower` and whitespace. -/

theorem toNat_ofNat_valid (n : Nat) (h : n.isValidChar) : (Char.ofNat n).toNat = n := by
  simp [Char.ofNat, h, Char.ofNatAux, Char.toNat, UInt32.toNat]

theorem char_eq_iff_toNat {a b : Char} : a = b ↔ a.toNat = b.toNat := by
  constructor
  · rintro rfl; rfl
  · intro h
    rw [← Char.ofNat_toNat a, ← Char.ofNat_toNat b, h]

/-- Whitespace as a predicate on code points. -/
def pyIsSpaceNat (n : Nat) : Bool :=
  n = 32 || n = 9 || n = 10 || n = 13 || n = 11 || n = 12

theorem pyIsSpace_eq_nat (c : Char) : pyIsSpace c = pyIsSpaceNat c.toNat := by
  have h : ∀ d : Char, (decide (c = d)) = decide (c.toNat = d.toNat) := fun d =>
    decide_eq_decide.mpr char_eq_iff_toNat
  simp only [pyIsSpace, pyIsSpaceNat, h]
  rfl

theorem toLower_toNat (c : Char) :
    (Char.toLower c).toNat = if 65 ≤ c.toNat ∧ c.toNat ≤ 90 then c.toNat + 32 else c.toNat := by
  unfold Char.toLower
  by_cases h : 65 ≤ c.toNat ∧ c.toNat ≤ 90
  · rw [if_pos h, if_pos (show c.toNat ≥ 65 ∧ c.toNat ≤ 90 from ⟨h.1, h.2⟩)]
    exact toNat_ofNat_valid _ (Or.inl (by omega))
  · rw [if_neg h, if_neg (show ¬(c.toNat ≥ 65 ∧ c.toNat ≤ 90) from fun hc => h ⟨hc.1, hc.2⟩)]

theorem toLower_idem (c : Char) : Char.toLower (Char.toLower c) = Char.toLower c := by
  apply char_eq_iff_toNat.mpr
  by_cases h : 65 ≤ c.toNat ∧ c.toNat ≤ 90
  · have h1 : (Char.toLower c).toNat = c.toNat + 32 := by rw [toLower_toNat, if_pos h]
    have h2 : ¬(65 ≤ (Char.toLower c).toNat ∧ (Char.toLower c).toNat ≤ 90) := by
      rw [h1]; omega
    rw [toLower_toNat, if_neg h2]
  · have h1 : (Char.toLower c).toNat = c.toNat := by rw [toLower_toNat, if_neg h]
    have h2 : ¬(65 ≤ (Char.toLower c).toNat ∧ (Char.toLower c).toNat ≤ 90) := by
      rw [h1]; exact h
    rw [toLower_toNat, if_neg h2]

theorem pyIsSpace_toLower (c : Char) : pyIsSpace (Char.toLower c) = pyIsSpace c := by
  rw [pyIsSpace_eq_nat, pyIsSpace_eq_nat, toLower_toNat]
  by_cases h : 65 ≤ c.toNat ∧ c.toNat ≤ 90
  · rw [if_pos h]
    have hA : pyIsSpaceNat (c.toNat + 32) = false := by
      simp only [pyIsSpaceNat, Bool.or_eq_false_iff, decide_eq_false_iff_not]
      omega
    have hB : pyIsSpaceNat c.toNat = false := by
      simp only [pyIsSpaceNat, Bool.or_eq_false_iff, decide_eq_false_iff_not]
      omega
    rw [hA, hB]
  · rw [if_neg h]

theorem pyIsSpace_blank : pyIsSpace ' ' = true := by decide

theorem toLower_blank : Char.toLower ' ' = ' ' := by decide

/-! ### Facts about `collapseWs`. -/

theorem collapseWs_cons_nonspace {c : Char} (cs : List Char) (h : pyIsSpace c = false) :
    collapseWs (c :: cs) = c :: collapseWs cs := by
  cases cs <;> simp [collapseWs, h]

theorem collapseWs_ne_nil : ∀ l : List Char, l ≠ [] → collapseWs l ≠ [] := by
  intro l
  induction l using collapseWs.induct with
  | case1 => exact fun h => absurd rfl h
  | case2 c hc => intro _; simp [collapseWs, hc]
  | case3 c hc c2 cs2 hc2 ih =>
    intro _
    have : collapseWs (c :: c2 :: cs2) = collapseWs (c2 :: cs2) := by
      simp [collapseWs, hc, hc2]
    rw [this]; exact ih (by simp)
  | case4 c hc c2 cs2 hc2 ih => intro _; simp [collapseWs, hc, hc2]
  | case5 c cs hc ih =>
    intro _
    rw [collapseWs_cons_nonspace cs (Bool.not_eq_true _ ▸ eq_false_of_ne_true hc)]
    simp

theorem mem_collapseWs : ∀ l : List Char, ∀ c ∈ collapseWs l, c = ' ' ∨ c ∈ l := by
  intro l
  induction l using collapseWs.induct with
  | case1 => intro c hc; simp [collapseWs] at hc
  | case2 c0 hc0 =>
    intro c hc; simp [collapseWs, hc0] at hc; exact Or.inl hc
  | case3 c0 hc0 c2 cs2 hc2 ih =>
    intro c hc
    rw [show collapseWs (c0 :: c2 :: cs2) = collapseWs (c2 :: cs2) by
      simp [collapseWs, hc0, hc2]] at hc
    rcases ih c hc with h | h
    · exact Or.inl h
    · exact Or.inr (List.mem_cons_of_mem _ h)
  | case4 c0 hc0 c2 cs2 hc2 ih =>
    intro c hc
    rw [show collapseWs (c0 :: c2 :: cs2) = ' ' :: collapseWs (c2 :: cs2) by
      simp [collapseWs, hc0, hc2]] at hc
    rcases List.mem_cons.mp hc with h | h
    · exact Or.inl h
    · rcases ih c h with h2 | h2
      · exact Or.inl h2
      · exact Or.inr (List.mem_cons_of_mem _ h2)
  | case5 c0 cs hc0 ih =>
    intro c hc
    rw [collapseWs_cons_nonspace cs (eq_false_of_ne_true hc0)] at hc
    rcases List.mem_cons.mp hc with h | h
    · exact Or.inr (h ▸ List.mem_cons_self _ _)
    · rcases ih c h with h2 | h2
      · exact Or.inl h2
      · exact Or.inr (List.mem_cons_of_mem _ h2)

theorem space_mem_collapseWs :
    ∀ l : List Char, ∀ c ∈ collapseWs l, pyIsSpace c = true → c = ' ' := by
  intro l
  induction l using collapseWs.induct with
  | case1 => intro c hc; simp [collapseWs] at hc
  | case2 c0 hc0 => intro c hc _; simp [collapseWs, hc0] at hc; exact hc
  | case3 c0 hc0 c2 cs2 hc2 ih =>
    intro c hc hsp
    rw [show collapseWs (c0 :: c2 :: cs2) = collapseWs (c2 :: cs2) by
      simp [collapseWs, hc0, hc2]] at hc
    exact ih c hc hsp
  | case4 c0 hc0 c2 cs2 hc2 ih =>
    intro c hc hsp
    rw [show collapseWs (c0 :: c2 :: cs2) = ' ' :: collapseWs (c2 :: cs2) by
      simp [collapseWs, hc0, hc2]] at hc
    rcases List.mem_cons.mp hc with h | h
    · exact h
    · exact ih c h hsp
  | case5 c0 cs hc0 ih =>
    intro c hc hsp
    rw [collapseWs_cons_nonspace cs (eq_false_of_ne_true hc0)] at hc
    rcases List.mem_cons.mp hc with h | h
    · exact absurd (h ▸ hsp) (by simpa using hc0)
    · exact ih c h hsp

theorem chain'_collapseWs :
    ∀ l : List Char,
      (collapseWs l).Chain' (fun a b => pyIsSpace a = false ∨ pyIsSpace b = false) := by
  intro l
  induction l using collapseWs.induct with
  | case1 => simp [collapseWs]
  | case2 c0 hc0 => simp [collapseWs, hc0]
  | case3 c0 hc0 c2 cs2 hc2 ih =>
    rw [show collapseWs (c0 :: c2 :: cs2) = collapseWs (c2 :: cs2) by
      simp [collapseWs, hc0, hc2]]
    exact ih
  | case4 c0 hc0 c2 cs2 hc2 ih =>
    rw [show collapseWs (c0 :: c2 :: cs2) = ' ' :: collapseWs (c2 :: cs2) by
      simp [collapseWs, hc0, hc2]]
    apply List.chain'_cons'.mpr
    refine ⟨?_, ih⟩
    intro b hb
    have hc2' : pyIsSpace c2 = false := eq_false_of_ne_true hc2
    rw [collapseWs_cons_nonspace cs2 hc2'] at hb
    simp at hb
    exact Or.inr (hb ▸ hc2')
  | case5 c0 cs hc0 ih =>
    rw [collapseWs_cons_nonspace cs (eq_false_of_ne_true hc0)]
    apply List.chain'_cons'.mpr
    exact ⟨fun b _ => Or.inl (eq_false_of_ne_true hc0), ih⟩

theorem getLast?_collapseWs :
    ∀ l : List Char, ∀ c, l.getLast? = some c → pyIsSpace c = false →
      (collapseWs l).getLast? = some c := by
  intro l
  induction l using collapseWs.induct with
  | case1 => intro c hc _; simp at hc
  | case2 c0 hc0 =>
    intro c hc hsp
    simp at hc
    rw [← hc] at hsp
    rw [hc0] at hsp
    exact absurd hsp (by simp)
  | case3 c0 hc0 c2 cs2 hc2 ih =>
    intro c hc hsp
    rw [List.getLast?_cons_cons] at hc
    rw [show collapseWs (c0 :: c2 :: cs2) = collapseWs (c2 :: cs2) by
      simp [collapseWs, hc0, hc2]]
    exact ih c hc hsp
  | case4 c0 hc0 c2 cs2 hc2 ih =>
    intro c hc hsp
    rw [List.getLast?_cons_cons] at hc
    rw [show collapseWs (c0 :: c2 :: cs2) = ' ' :: collapseWs (c2 :: cs2) by
      simp [collapseWs, hc0, hc2]]
    have hne : collapseWs (c2 :: cs2) ≠ [] := collapseWs_ne_nil _ (by simp)
    rcases List.exists_cons_of_ne_nil hne with ⟨d, ds, hds⟩
    rw [hds, List.getLast?_cons_cons, ← hds]
    exact ih c hc hsp
  | case5 c0 cs hc0 ih =>
    intro c hc hsp
    rw [collapseWs_cons_nonspace cs (eq_false_of_ne_true hc0)]
    cases cs with
    | nil =>
      simp at hc
      simp [collapseWs, hc]
    | cons d ds =>
      rw [List.getLast?_cons_cons] at hc
      have hne : collapseWs (d :: ds) ≠ [] := collapseWs_ne_nil _ (by simp)
      rcases List.exists_cons_of_ne_nil hne with ⟨e, es, hes⟩
      rw [hes, List.getLast?_cons_cons, ← hes]
      exact ih c hc hsp

theorem collapseWs_eq_self :
    ∀ l : List Char,
      l.Chain' (fun a b => pyIsSpace a = false ∨ pyIsSpace b = false) →
      (∀ c ∈ l, pyIsSpace c = true → c = ' ') →
      collapseWs l = l := by
  intro l
  induction l using collapseWs.induct with
  | case1 => intro _ _; rfl
  | case2 c0 hc0 =>
    intro _ hb
    have : c0 = ' ' := hb c0 (List.mem_cons_self _ _) hc0
    simp [collapseWs, hc0, this]
  | case3 c0 hc0 c2 cs2 hc2 ih =>
    intro hch _
    rcases (List.chain'_cons.mp hch).1 with h | h
    · rw [hc0] at h; cases h
    · rw [hc2] at h; cases h
  | case4 c0 hc0 c2 cs2 hc2 ih =>
    intro hch hb
    have h0 : c0 = ' ' := hb c0 (List.mem_cons_self _ _) hc0
    rw [show collapseWs (c0 :: c2 :: cs2) = ' ' :: collapseWs (c2 :: cs2) by
      simp [collapseWs, hc0, hc2]]
    rw [ih (List.chain'_cons.mp hch).2
      (fun c hc hsp => hb c (List.mem_cons_of_mem _ hc) hsp), h0]
  | case5 c0 cs hc0 ih =>
    intro hch hb
    rw [collapseWs_cons_nonspace cs (eq_false_of_ne_true hc0)]
    cases cs with
    | nil => rfl
    | cons d ds =>
      rw [ih (List.chain'_cons.mp hch).2
        (fun c hc hsp => hb c (List.mem_cons_of_mem _ hc) hsp)]

/-! ### Facts about `pyStrip`. -/

theorem dropWhile_head_not (p : Char → Bool) :
    ∀ l : List Char, ∀ c, (l.dropWhile p).head? = some c → p c = false := by
  intro l
  induction l with
  | nil => intro c hc; simp at hc
  | cons a as' ih =>
    intro c hc
    by_cases ha : p a
    · rw [List.dropWhile_cons_of_pos ha] at hc
      exact ih c hc
    · rw [List.dropWhile_cons_of_neg ha] at hc
      simp at hc
      rw [← hc]
      exact eq_false_of_ne_true ha

theorem dropWhile_eq_self_of_head (p : Char → Bool) (l : List Char)
    (h : ∀ c, l.head? = some c → p c = false) : l.dropWhile p = l := by
  cases l with
  | nil => rfl
  | cons a as' =>
    have : p a = false := h a rfl
    rw [List.dropWhile_cons_of_neg (by simp [this])]

theorem getLast?_dropWhile_of_ne (p : Char → Bool) (l : List Char)
    (h : l.dropWhile p ≠ []) : (l.dropWhile p).getLast? = l.getLast? := by
  rcases (List.dropWhile_suffix p (l := l)) with ⟨t, ht⟩
  conv_rhs => rw [← ht]
  rw [List.getLast?_append]
  rcases hgl : (l.dropWhile p).getLast? with _ | c
  · exact absurd (List.getLast?_eq_none_iff.mp hgl) h
  · rfl

theorem pyStrip_head (l : List Char) :
    ∀ c, (pyStrip l).head? = some c → pyIsSpace c = false := by
  intro c hc
  unfold pyStrip at hc
  rw [List.head?_reverse] at hc
  by_cases hW : (l.dropWhile pyIsSpace).reverse.dropWhile pyIsSpace = []
  · rw [hW] at hc; simp at hc
  · rw [getLast?_dropWhile_of_ne _ _ hW, List.getLast?_reverse] at hc
    exact dropWhile_head_not pyIsSpace l c hc

theorem pyStrip_getLast (l : List Char) :
    ∀ c, (pyStrip l).getLast? = some c → pyIsSpace c = false := by
  intro c hc
  unfold pyStrip at hc
  rw [List.getLast?_reverse] at hc
  exact dropWhile_head_not pyIsSpace _ c hc

theorem pyStrip_eq_self (l : List Char)
    (hh : ∀ c, l.head? = some c → pyIsSpace c = false)
    (hl : ∀ c, l.getLast? = some c → pyIsSpace c = false) : pyStrip l = l := by
  unfold pyStrip
  rw [dropWhile_eq_self_of_head _ _ hh]
  rw [dropWhile_eq_self_of_head _ _ (fun c hc => hl c (List.head?_reverse l ▸ hc))]
  exact List.reverse_reverse l

/-! ### The `_norm` output invariants and idempotence. -/

theorem pyNorm_head_nonspace (s : Option String) :
    ∀ c, (pyNorm s).data.head? = some c → pyIsSpace c = false := by
  intro c hc
  rcases hL : pyLowerList (pyStrip (s.getD "").data) with _ | ⟨d, ds⟩
  · rw [show (pyNorm s).data = collapseWs (pyLowerList (pyStrip (s.getD "").data)) from rfl,
      hL] at hc
    simp [collapseWs] at hc
  · have hd : pyIsSpace d = false := by
      have : (pyLowerList (pyStrip (s.getD "").data)).head? = some d := by rw [hL]; rfl
      rw [pyLowerList, List.head?_map] at this
      rcases hh : (pyStrip (s.getD "").data).head? with _ | e
      · rw [hh] at this; simp at this
      · rw [hh] at this
        simp at this
        rw [← this, pyIsSpace_toLower]
        exact pyStrip_head _ e hh
    rw [show (pyNorm s).data = collapseWs (pyLowerList (pyStrip (s.getD "").data)) from rfl,
      hL, collapseWs_cons_nonspace ds hd] at hc
    simp at hc
    rw [← hc]
    exact hd

theorem pyNorm_getLast_nonspace (s : Option String) :
    ∀ c, (pyNorm s).data.getLast? = some c → pyIsSpace c = false := by
  intro c hc
  rw [show (pyNorm s).data = collapseWs (pyLowerList (pyStrip (s.getD "").data)) from rfl] at hc
  rcases hgl : (pyLowerList (pyStrip (s.getD "").data)).getLast? with _ | e
  · have : pyLowerList (pyStrip (s.getD "").data) = [] := List.getLast?_eq_none_iff.mp hgl
    rw [this] at hc
    simp [collapseWs] at hc
  · have he : pyIsSpace e = false := by
      rw [pyLowerList, List.getLast?_map] at hgl
      rcases hh : (pyStrip (s.getD "").data).getLast? with _ | f
      · rw [hh] at hgl; simp at hgl
      · rw [hh] at hgl
        simp at hgl
        rw [← hgl, pyIsSpace_toLower]
        exact pyStrip_getLast _ f hh
    rw [getLast?_collapseWs _ e hgl he] at hc
    simp at hc
    rw [← hc]
    exact he

theorem pyNorm_chain (s : Option String) :
    (pyNorm s).data.Chain' (fun a b => pyIsSpace a = false ∨ pyIsSpace b = false) :=
  chain'_collapseWs _

theorem pyNorm_space_blank (s : Option String) :
    ∀ c ∈ (pyNorm s).data, pyIsSpace c = true → c = ' ' :=
  space_mem_collapseWs _

theorem pyNorm_lower_fixed (s : Option String) :
    ∀ c ∈ (pyNorm s).data, Char.toLower c = c := by
  intro c hc
  rcases mem_collapseWs _ c hc with h | h
  · rw [h]; exact toLower_blank
  · rcases List.mem_map.mp h with ⟨d, _, hd⟩
    rw [← hd]
    exact toLower_idem d

theorem pyNorm_idem (s : Option String) : pyNorm (some (pyNorm s)) = pyNorm s := by
  show String.mk (collapseWs (pyLowerList (pyStrip (pyNorm s).data))) = pyNorm s
  rw [pyStrip_eq_self _ (pyNorm_head_nonspace s) (pyNorm_getLast_nonspace s)]
  rw [show pyLowerList (pyNorm s).data = (pyNorm s).data from
    (List.map_congr_left (fun c hc => pyNorm_lower_fixed s c hc)).trans
      (List.map_id _)]
  rw [collapseWs_eq_self _ (pyNorm_chain s) (pyNorm_space_blank s)]

/-- Lowercasing commutes with stripping (whitespace is `toLower`-invariant). -/
theorem pyLowerList_pyStrip_comm (l : List Char) :
    pyLowerList (pyStrip l) = pyStrip (pyLowerList l) := by
  have hp : (pyIsSpace ∘ Char.toLower) = pyIsSpace := funext fun c => pyIsSpace_toLower c
  unfold pyStrip pyLowerList
  rw [List.dropWhile_map, hp, ← List.map_reverse, List.dropWhile_map, hp, ← List.map_reverse]

/-- Normalization factors through `str.lower`: strings with the same lowercasing
have the same normalization. -/
theorem pyNorm_eq_of_pyLower_eq {a b : String} (h : pyLower a = pyLower b) :
    pyNorm (some a) = pyNorm (some b) := by
  have ha : pyNorm (some a) = ⟨collapseWs (pyStrip (pyLower a).data)⟩ := by
    show String.mk (collapseWs (pyLowerList (pyStrip a.data))) = _
    rw [pyLowerList_pyStrip_comm]
    rfl
  have hb : pyNorm (some b) = ⟨collapseWs (pyStrip (pyLower b).data)⟩ := by
    show String.mk (collapseWs (pyLowerList (pyStrip b.data))) = _
    rw [pyLowerList_pyStrip_comm]
    rfl
  rw [ha, hb, h]

/-! ### Claim C10: the normalizer is total and idempotent. -/

/-- C10: for every input (including the `None` that `s or ""` absorbs),
`_norm` returns a string whose characters are all lowercase-fixed, with no
leading or trailing whitespace and no two consecutive whitespace
characters, and `_norm` is idempotent. -/
theorem norm_total_idempotent (s : Option String) :
    (∀ c ∈ (pyNorm s).data, Char.toLower c = c)
    ∧ (∀ c, (pyNorm s).data.head? = some c → pyIsSpace c = false)
    ∧ (∀ c, (pyNorm s).data.getLast? = some c → pyIsSpace c = false)
    ∧ (pyNorm s).data.Chain' (fun a b => pyIsSpace a = false ∨ pyIsSpace b = false)
    ∧ pyNorm (some (pyNorm s)) = pyNorm s :=
  ⟨pyNorm_lower_fixed s, pyNorm_head_nonspace s, pyNorm_getLast_nonspace s,
    pyNorm_chain s, pyNorm_idem s⟩

/-- Witness for C10 at a concrete input: instantiating the theorem at
`"  A  B c "` and evaluating the normalizer there. -/
theorem norm_total_idempotent_witness :
    pyNorm (some (pyNorm (some "  A  B c "))) = pyNorm (some "  A  B c ")
    ∧ pyNorm (some "  A  B c ") = "a b c" :=
  ⟨(norm_total_idempotent (some "  A  B c ")).2.2.2.2, by decide⟩

/-! ### Claim C5: the cadence step. -/

theorem max?_eq_getLast?_of_sorted :
    ∀ l : List Int, l.Chain' (· ≤ ·) → l.max? = l.getLast? := by
  intro l
  induction l with
  | nil => intro _; rfl
  | cons x xs ih =>
    intro h
    cases xs with
    | nil => rfl
    | cons y t =>
      have hxy : x ≤ y := (List.chain'_cons.mp h).1
      have htail := ih (List.chain'_cons.mp h).2
      show some ((y :: t).foldl max x) = _
      rw [List.foldl_cons, max_eq_right hxy, List.getLast?_cons_cons, ← htail]
      rfl

/-- C5: for a sorted list of at least three (parsed) dates, the cadence
step builds the `n - 1` consecutive day gaps, the gap list is nonempty, the
monthly test holds iff the exact mean of the gaps lies in `[27, 33]`, the
`max` the code takes is the latest (last) date, and a qualifying group's
plan carries `next_expected = isoformat(latest + 30 days)`. -/
theorem cadence_monthly_band (dates : List Int) (h3 : 3 ≤ dates.length)
    (hs : dates.Chain' (· ≤ ·)) :
    (gapDiffs dates).length = dates.length - 1
    ∧ gapDiffs dates ≠ []
    ∧ (inMonthlyBand (gapDiffs dates) = true ↔
        ((27 : ℚ) ≤ ((gapDiffs dates).sum : ℚ) / ((gapDiffs dates).length : ℚ)
          ∧ ((gapDiffs dates).sum : ℚ) / ((gapDiffs dates).length : ℚ) ≤ 33))
    ∧ dates.max? = dates.getLast?
    ∧ (∀ (key : String) (items : List Txn) (p : MergePlan),
        groupPlan (key, items) = some p →
        (sortByDate items).filterMap (fun it => it.date.bind parseDateDays) = dates →
        p.nextExpected = isoOfDays ((dates.max?).getD 0 + 30)) := by
  have hlen : (gapDiffs dates).length = dates.length - 1 := by
    rw [gapDiffs, List.length_map, List.length_zip, List.length_tail]
    omega
  refine ⟨hlen, ?_, ?_, max?_eq_getLast?_of_sorted dates hs, ?_⟩
  · intro h
    have : (gapDiffs dates).length = 0 := by rw [h]; rfl
    omega
  · rw [inMonthlyBand, Bool.and_eq_true, decide_eq_true_eq, decide_eq_true_eq, avgGap_eq]
  · intro key items p hp hdates
    simp only [groupPlan] at hp
    split_ifs at hp
    cases hp
    rw [← hdates]

/-- Concrete three-record group used as witness input: "Netflix" charges on
1970-01-01, 1970-01-31, 1970-03-02 (day numbers 0, 30, 60). -/
def wTxnsC5 : List Txn :=
  [⟨1, none, none, some "Netflix", some 16, some "USD", some "1970-01-01", none, none⟩,
   ⟨2, none, none, some "Netflix", some 16, some "USD", some "1970-01-31", none, none⟩,
   ⟨3, none, none, some "Netflix", some 16, some "USD", some "1970-03-02", none, none⟩]

/-- Witness for C5 at the concrete sorted date list `[0, 30, 60]` and the
concrete group `wTxnsC5`, whose plan's `next_expected` is
`isoformat(60 + 30) = "1970-04-01"`. -/
theorem cadence_monthly_band_witness :
    (3 ≤ ([0, 30, 60] : List Int).length
      ∧ ([0, 30, 60] : List Int).Chain' (· ≤ ·))
    ∧ (gapDiffs [0, 30, 60]).length = 2
    ∧ inMonthlyBand (gapDiffs [0, 30, 60]) = true
    ∧ (∃ p : MergePlan, groupPlan ("netflix", wTxnsC5) = some p
        ∧ p.nextExpected = isoOfDays (([0, 30, 60] : List Int).max?.getD 0 + 30)
        ∧ p.nextExpected = "1970-04-01") := by
  have hch : ([0, 30, 60] : List Int).Chain' (· ≤ ·) := by
    norm_num [List.chain'_cons]
  refine ⟨⟨by decide, hch⟩, ?_, by decide, ?_⟩
  · have h := (cadence_monthly_band [0, 30, 60] (by decide) hch).1
    rw [h]
    rfl
  · refine ⟨⟨"Netflix", [1, 2, 3], "1970-04-01"⟩, by decide, ?_, rfl⟩
    exact ((cadence_monthly_band [0, 30, 60] (by decide) hch).2.2.2.2
      "netflix" wTxnsC5 ⟨"Netflix", [1, 2, 3], "1970-04-01"⟩ (by decide) (by decide)).symm ▸ rfl

/-! ### Claim C4: the "at least 3 dates" gate counts parseable dates with
multiplicity, not distinct dates. -/

theorem groupPlan_none_of_short (g : String × List Txn) (h : g.2.length < 3) :
    groupPlan g = none := by
  obtain ⟨key, items⟩ := g
  simp only [groupPlan]
  rw [if_pos h]

/-- C4 (amended): a group whose list of parseable dates (counted with
multiplicity, as the code counts them) has fewer than 3 entries is skipped:
the per-group step leaves the state unchanged. -/
theorem few_parseable_dates_skipped (now : Int) (db : DB) (g : String × List Txn)
    (h : ((sortByDate g.2).filterMap (fun it => it.date.bind parseDateDays)).length < 3) :
    processGroup now db g = db := by
  obtain ⟨key, items⟩ := g
  have hplan : groupPlan (key, items) = none := by
    simp only [groupPlan]
    split_ifs with h1
    · rfl
    · rfl
  rw [processGroup, hplan]

/-- Three "Acme" records with only two distinct parseable dates
(2025-01-01 twice and 2025-03-02), sixty days apart, constant amount. -/
def wTxnsC4 : List Txn :=
  [⟨1, none, none, some "Acme", some 10, some "USD", some "2025-01-01", none, none⟩,
   ⟨2, none, none, some "Acme", some 10, some "USD", some "2025-01-01", none, none⟩,
   ⟨3, none, none, some "Acme", some 10, some "USD", some "2025-03-02", none, none⟩]

/-- Starting state for the C4 counterexample: only the three Acme records. -/
def wDBC4 : DB := ⟨wTxnsC4, [], [], 1, 1⟩

/-- Run instant for the C4 counterexample (2025-03-02). -/
def wNowC4 : Int := daysFromCivil 2025 3 2

/-- C4 (counterexample): the group has only 2 distinct parseable dates, yet
its duplicate dates average to a 30-day gap, so the detection run creates a
Vendor and a Subscription — refuting the claim that fewer than 3 distinct
parseable dates always yields no subscription. -/
theorem distinct_dates_not_required :
    ((wTxnsC4.filterMap (fun t => t.date.bind parseDateDays)).dedup).length = 2
    ∧ (detect_basic_subscriptions wDBC4 wNowC4).subs.length = 1
    ∧ (detect_basic_subscriptions wDBC4 wNowC4).vendors.map (fun v => v.name) = ["Acme"] := by
  refine ⟨by decide, by decide, by decide⟩

/-- A group with three records of which only two have parseable dates. -/
def wGroupC4 : String × List Txn :=
  ("acme",
   [⟨1, none, none, some "Acme", some 10, some "USD", some "2025-01-01", none, none⟩,
    ⟨2, none, none, some "Acme", some 10, some "USD", some "not-a-date", none, none⟩,
    ⟨3, none, none, some "Acme", some 10, some "USD", some "2025-02-01", none, none⟩])

/-- Witness for the amended C4: a three-record group with two parseable
dates is skipped unchanged. -/
theorem few_parseable_dates_skipped_witness :
    ((sortByDate wGroupC4.2).filterMap (fun it => it.date.bind parseDateDays)).length < 3
    ∧ processGroup 20000 wDBC4 wGroupC4 = wDBC4 :=
  ⟨by decide, few_parseable_dates_skipped 20000 wDBC4 wGroupC4 (by decide)⟩

/-! ### Claim C7: the orchestrator's return value and empty input. -/

theorem foldl_processGroup_id (now : Int) :
    ∀ (gs : List (String × List Txn)) (db : DB),
      (∀ g ∈ gs, groupPlan g = none) →
      gs.foldl (fun acc g => processGroup now acc g) db = db := by
  intro gs
  induction gs with
  | nil => intro db _; rfl
  | cons g gs' ih =>
    intro db h
    rw [List.foldl_cons,
      show processGroup now db g = db by rw [processGroup, h g (List.mem_cons_self _ _)]]
    exact ih db (fun g' hg' => h g' (List.mem_cons_of_mem _ hg'))

/-- C7 (amended): `detect_basic_subscriptions` returns `None` (no
`DetectionResult` counts) on every input; empty input is not an error: with
no merchant-named transactions the function returns early with the state
unchanged, and when no group reaches size 3 the run upserts nothing. -/
theorem detect_empty_zero_upserts (db : DB) (now : Int) :
    detectReturn db now = none
    ∧ (db.txns.filter (fun t => t.merchant_name.isSome) = [] →
        detect_basic_subscriptions db now = db)
    ∧ ((∀ g ∈ buildGroups ((db.txns.filter (fun t => t.merchant_name.isSome)).filter
          (keepRecord (now - WINDOW_DAYS))), g.2.length < 3) →
        detect_basic_subscriptions db now = db) := by
  refine ⟨rfl, ?_, ?_⟩
  · intro h
    rw [detect_basic_subscriptions, if_pos h]
  · intro h
    rw [detect_basic_subscriptions]
    split_ifs with h0
    · rfl
    · exact foldl_processGroup_id now _ db
        (fun g hg => groupPlan_none_of_short g (h g hg))

/-- C7 (counterexample): on the empty database the detection function's
return value is `None`, not a `DetectionResult` summary. -/
theorem detect_returns_no_result :
    detectReturn ⟨[], [], [], 1, 1⟩ 0 = none
    ∧ (detectReturn ⟨[], [], [], 1, 1⟩ 0).isSome = false := ⟨rfl, rfl⟩

/-- Witness for the amended C7 on the empty database: no error, state
unchanged, `None` returned. -/
theorem detect_empty_zero_upserts_witness :
    (⟨[], [], [], 1, 1⟩ : DB).txns.filter (fun t => t.merchant_name.isSome) = []
    ∧ detect_basic_subscriptions ⟨[], [], [], 1, 1⟩ 0 = ⟨[], [], [], 1, 1⟩
    ∧ detectReturn ⟨[], [], [], 1, 1⟩ 0 = none := by
  refine ⟨by decide, ?_, (detect_empty_zero_upserts ⟨[], [], [], 1, 1⟩ 0).1⟩
  exact (detect_empty_zero_upserts ⟨[], [], [], 1, 1⟩ 0).2.1 (by decide)

/-! ### Frame and evolution of a detection run (claims C2, C3, C9). -/

/-- Two transaction rows that agree on every column except `vendor_id`. -/
def TxnSame (t u : Txn) : Prop :=
  u.id = t.id ∧ u.plaid_txn_id = t.plaid_txn_id ∧ u.merchant_name = t.merchant_name
  ∧ u.amount = t.amount ∧ u.iso_currency_code = t.iso_currency_code ∧ u.date = t.date
  ∧ u.rawName = t.rawName ∧ u.rawPfcPrimary = t.rawPfcPrimary

/-- What a detection run preserves (or improves) on a pre-existing
subscription row: primary key, vendor link, status, `first_seen`, and the
confidence never decreases. -/
def subKeep (s u : Subscription) : Prop :=
  u.id = s.id ∧ u.vendor_id = s.vendor_id ∧ u.status = s.status
  ∧ u.first_seen = s.first_seen ∧ s.confidence ≤ u.confidence

theorem txnSame_refl (t : Txn) : TxnSame t t :=
  ⟨rfl, rfl, rfl, rfl, rfl, rfl, rfl, rfl⟩

theorem txnSame_trans {t u w : Txn} (h1 : TxnSame t u) (h2 : TxnSame u w) : TxnSame t w := by
  obtain ⟨a1, a2, a3, a4, a5, a6, a7, a8⟩ := h1
  obtain ⟨b1, b2, b3, b4, b5, b6, b7, b8⟩ := h2
  exact ⟨b1.trans a1, b2.trans a2, b3.trans a3, b4.trans a4, b5.trans a5,
    b6.trans a6, b7.trans a7, b8.trans a8⟩

theorem subKeep_refl (s : Subscription) : subKeep s s :=
  ⟨rfl, rfl, rfl, rfl, le_refl _⟩

theorem subKeep_trans {s u w : Subscription} (h1 : subKeep s u) (h2 : subKeep u w) :
    subKeep s w := by
  obtain ⟨a1, a2, a3, a4, a5⟩ := h1
  obtain ⟨b1, b2, b3, b4, b5⟩ := h2
  exact ⟨b1.trans a1, b2.trans a2, b3.trans a3, b4.trans a4, a5.trans b5⟩

/-- The shape of one merge step's effect on the three tables: transactions
are rewritten pointwise preserving everything but `vendor_id`; vendors only
grow at the end; subscriptions are rewritten pointwise (preserving id,
vendor link, status, `first_seen`, never lowering confidence) and may grow
at the end. -/
def EvolveShape (db db' : DB) : Prop :=
  (∃ f : Txn → Txn, db'.txns = db.txns.map f ∧ ∀ t, TxnSame t (f t))
  ∧ (∃ created, db'.vendors = db.vendors ++ created)
  ∧ (∃ (u : Subscription → Subscription) (rest : List Subscription),
      db'.subs = db.subs.map u ++ rest ∧ ∀ s, subKeep s (u s))

theorem evolveShape_refl (db : DB) : EvolveShape db db :=
  ⟨⟨id, (List.map_id _).symm, fun t => txnSame_refl t⟩,
   ⟨[], (List.append_nil _).symm⟩,
   ⟨id, [], by rw [List.map_id, List.append_nil], fun s => subKeep_refl s⟩⟩

theorem evolveShape_trans {db1 db2 db3 : DB}
    (h1 : EvolveShape db1 db2) (h2 : EvolveShape db2 db3) : EvolveShape db1 db3 := by
  obtain ⟨⟨f1, hf1, hf1s⟩, ⟨c1, hc1⟩, ⟨u1, r1, hu1, hu1s⟩⟩ := h1
  obtain ⟨⟨f2, hf2, hf2s⟩, ⟨c2, hc2⟩, ⟨u2, r2, hu2, hu2s⟩⟩ := h2
  refine ⟨⟨f2 ∘ f1, ?_, fun t => txnSame_trans (hf1s t) (hf2s (f1 t))⟩,
    ⟨c1 ++ c2, ?_⟩,
    ⟨u2 ∘ u1, r1.map u2 ++ r2, ?_, fun s => subKeep_trans (hu1s s) (hu2s (u1 s))⟩⟩
  · rw [hf2, hf1, List.map_map]
  · rw [hc2, hc1, List.append_assoc]
  · rw [hu2, hu1, List.map_append, List.map_map, List.append_assoc]

theorem linkTo_txnSame (vid : Nat) (ids : List Nat) (t : Txn) :
    TxnSame t (linkTo vid ids t) := by
  unfold linkTo
  by_cases hmem : t.id ∈ ids
  · by_cases hvid : t.vendor_id ≠ some vid
    · rw [if_pos hmem, if_pos hvid]
      exact ⟨rfl, rfl, rfl, rfl, rfl, rfl, rfl, rfl⟩
    · rw [if_pos hmem, if_neg hvid]
      exact txnSame_refl t
  · rw [if_neg hmem]
    exact txnSame_refl t

theorem updSubRow_subKeep (now : Int) (nextExp : String) (s : Subscription) :
    subKeep s (updSubRow now nextExp s) :=
  ⟨rfl, rfl, rfl, rfl, le_max_left _ _⟩

theorem updSubs_subKeep (now : Int) (nextExp : String) (tid : Nat) (s : Subscription) :
    subKeep s (if s.id = tid then updSubRow now nextExp s else s) := by
  by_cases h : s.id = tid
  · rw [if_pos h]; exact updSubRow_subKeep now nextExp s
  · rw [if_neg h]; exact subKeep_refl s

theorem mergeWithVendor_evolve (now : Int) (db : DB) (v : Vendor) (p : MergePlan) :
    EvolveShape db (mergeWithVendor now db v p) := by
  unfold mergeWithVendor
  rcases hsub : db.subs.find? (fun s => s.vendor_id = some v.id) with _ | s0
  all_goals rw [hsub]
  · exact ⟨⟨linkTo v.id p.itemIds, rfl, fun t => linkTo_txnSame v.id p.itemIds t⟩,
      ⟨[], (List.append_nil _).symm⟩,
      ⟨id, [newSubRow now v.id db.nextSubId p.nextExpected],
        by rw [List.map_id], fun s => subKeep_refl s⟩⟩
  · exact ⟨⟨linkTo v.id p.itemIds, rfl, fun t => linkTo_txnSame v.id p.itemIds t⟩,
      ⟨[], (List.append_nil _).symm⟩,
      ⟨fun s => if s.id = s0.id then updSubRow now p.nextExpected s else s, [],
        (List.append_nil _).symm, fun s => updSubs_subKeep now p.nextExpected s0.id s⟩⟩

theorem applyMerge_evolve (now : Int) (db : DB) (p : MergePlan) :
    EvolveShape db (applyMerge now db p) := by
  unfold applyMerge
  rcases hfound : db.vendors.find? (fun v => pyLower v.name = pyLower p.display) with _ | v
  all_goals rw [hfound]
  · have hmidstep : EvolveShape db
        (⟨db.txns, db.vendors ++ [⟨db.nextVendorId, p.display, none⟩], db.subs,
          db.nextVendorId + 1, db.nextSubId⟩ : DB) :=
      ⟨⟨id, (List.map_id _).symm, fun t => txnSame_refl t⟩,
        ⟨[⟨db.nextVendorId, p.display, none⟩], rfl⟩,
        ⟨id, [], by rw [List.map_id, List.append_nil], fun s => subKeep_refl s⟩⟩
    exact evolveShape_trans hmidstep (mergeWithVendor_evolve now _ _ p)
  · exact mergeWithVendor_evolve now db v p

theorem processGroup_evolve (now : Int) (db : DB) (g : String × List Txn) :
    EvolveShape db (processGroup now db g) := by
  rw [processGroup]
  rcases groupPlan g with _ | p
  · exact evolveShape_refl db
  · exact applyMerge_evolve now db p

theorem foldl_processGroup_evolve (now : Int) :
    ∀ (gs : List (String × List Txn)) (db : DB),
      EvolveShape db (gs.foldl (fun acc g => processGroup now acc g) db) := by
  intro gs
  induction gs with
  | nil => intro db; exact evolveShape_refl db
  | cons g gs' ih =>
    intro db
    rw [List.foldl_cons]
    exact evolveShape_trans (processGroup_evolve now db g) (ih (processGroup now db g))

/-- Every detection run evolves the state along `EvolveShape`. -/
theorem detect_evolve (db : DB) (now : Int) :
    EvolveShape db (detect_basic_subscriptions db now) := by
  rw [detect_basic_subscriptions]
  split_ifs with h0
  · exact evolveShape_refl db
  · exact foldl_processGroup_evolve now _ db

theorem forall₂_map_self {α : Type} {R : α → α → Prop} (l : List α) (f : α → α)
    (h : ∀ a, R a (f a)) : List.Forall₂ R l (l.map f) := by
  induction l with
  | nil => exact List.Forall₂.nil
  | cons a as' ih => exact List.Forall₂.cons (h a) ih

/-! ### Claim C9: the detection run's frame. -/

/-- C9: a detection run never deletes a transaction or a vendor, never
edits any transaction column except `vendor_id`, and leaves every
pre-existing vendor row (in particular its name) byte-for-byte unchanged —
new vendors are only appended. -/
theorem detect_frame (db : DB) (now : Int) :
    List.Forall₂ TxnSame db.txns (detect_basic_subscriptions db now).txns
    ∧ (detect_basic_subscriptions db now).txns.length = db.txns.length
    ∧ (detect_basic_subscriptions db now).vendors.take db.vendors.length = db.vendors
    ∧ db.vendors.length ≤ (detect_basic_subscriptions db now).vendors.length := by
  obtain ⟨⟨f, hf, hfs⟩, ⟨created, hc⟩, _⟩ := detect_evolve db now
  refine ⟨?_, ?_, ?_, ?_⟩
  · rw [hf]; exact forall₂_map_self db.txns f hfs
  · rw [hf, List.length_map]
  · rw [hc, List.take_left]
  · rw [hc, List.length_append]; omega

/-! ### Claim C2: `status` of an existing subscription is never written. -/

/-- C2: the detection core never writes `status` on a pre-existing
subscription row — after any run, each of the original rows (matched
positionally; ids are also preserved) carries its original `status`, so a
status set to `active` or `cancelled` before the run survives it. -/
theorem status_never_overwritten (db : DB) (now : Int) :
    List.Forall₂ (fun s s' => s'.id = s.id ∧ s'.status = s.status)
      db.subs ((detect_basic_subscriptions db now).subs.take db.subs.length) := by
  obtain ⟨_, _, ⟨u, rest, hu, hus⟩⟩ := detect_evolve db now
  rw [hu, List.take_append_of_le_length (by rw [List.length_map]),
    List.take_of_length_le (by rw [List.length_map])]
  exact forall₂_map_self db.subs u (fun s => ⟨(hus s).1, (hus s).2.2.1⟩)

/-! ### Claim C3: confidence is monotone across runs. -/

/-- C3: for every subscription existing before a detection run, its
confidence after the run is at least its confidence before it (the update
writes `max(existing, 0.7)`; untouched rows keep their value). -/
theorem confidence_monotone (db : DB) (now : Int) :
    List.Forall₂ (fun s s' => s'.id = s.id ∧ s.confidence ≤ s'.confidence)
      db.subs ((detect_basic_subscriptions db now).subs.take db.subs.length) := by
  obtain ⟨_, _, ⟨u, rest, hu, hus⟩⟩ := detect_evolve db now
  rw [hu, List.take_append_of_le_length (by rw [List.length_map]),
    List.take_of_length_le (by rw [List.length_map])]
  exact forall₂_map_self db.subs u (fun s => ⟨(hus s).1, (hus s).2.2.2.2⟩)

/-! ### Group membership invariants (claims C8 and C1). -/

theorem addToGroups_mem_prop (P : String → Txn → Prop) :
    ∀ (gs : List (String × List Txn)) (key : String) (t : Txn),
      (∀ g ∈ gs, ∀ u ∈ g.2, P g.1 u) → P key t →
      ∀ g ∈ addToGroups gs key t, ∀ u ∈ g.2, P g.1 u := by
  intro gs
  induction gs with
  | nil =>
    intro key t _ hP g hg u hu
    simp only [addToGroups, List.mem_singleton] at hg
    subst hg
    simp only [List.mem_singleton] at hu
    subst hu
    exact hP
  | cons g0 rest ih =>
    intro key t hgs hP g hg u hu
    obtain ⟨k0, l0⟩ := g0
    by_cases hk : k0 = key
    · rw [show addToGroups ((k0, l0) :: rest) key t = (k0, l0 ++ [t]) :: rest by
        simp [addToGroups, hk]] at hg
      rcases List.mem_cons.mp hg with h | h
      · subst h
        rcases List.mem_append.mp hu with h2 | h2
        · exact hgs (k0, l0) (List.mem_cons_self _ _) u h2
        · simp only [List.mem_singleton] at h2
          subst h2
          rw [hk]  -- wrong direction? the goal is P k0 u with u = t and k0 = key
          exact hP
      · exact hgs g (List.mem_cons_of_mem _ h) u hu
    · rw [show addToGroups ((k0, l0) :: rest) key t = (k0, l0) :: addToGroups rest key t by
        simp [addToGroups, hk]] at hg
      rcases List.mem_cons.mp hg with h | h
      · subst h
        exact hgs (k0, l0) (List.mem_cons_self _ _) u hu
      · exact ih key t (fun g' hg' => hgs g' (List.mem_cons_of_mem _ hg')) hP g h u hu

theorem foldl_addToGroups_mem_prop (P : String → Txn → Prop) :
    ∀ (txns : List Txn) (gs0 : List (String × List Txn)),
      (∀ g ∈ gs0, ∀ u ∈ g.2, P g.1 u) →
      (∀ t ∈ txns, P (pyNorm t.merchant_name) t) →
      ∀ g ∈ txns.foldl (fun gs t => addToGroups gs (pyNorm t.merchant_name) t) gs0,
        ∀ u ∈ g.2, P g.1 u := by
  intro txns
  induction txns with
  | nil => intro gs0 h0 _ g hg; exact h0 g hg
  | cons t ts ih =>
    intro gs0 h0 hts g hg u hu
    rw [List.foldl_cons] at hg
    exact ih _ (addToGroups_mem_prop P gs0 _ t h0 (hts t (List.mem_cons_self _ _)))
      (fun t' ht' => hts t' (List.mem_cons_of_mem _ ht')) g hg u hu

theorem buildGroups_mem_prop (P : String → Txn → Prop)
    (txns : List Txn) (h : ∀ t ∈ txns, P (pyNorm t.merchant_name) t) :
    ∀ g ∈ buildGroups txns, ∀ u ∈ g.2, P g.1 u := by
  rw [buildGroups]
  exact foldl_addToGroups_mem_prop P txns [] (by intro g hg; simp at hg) h

/-! ### Claim C8: noise exclusion. -/

/-- The name `_is_noise` normalizes: `tx.merchant_name or raw.get("name", "")`. -/
def noiseNameArg (t : Txn) : String :=
  match t.merchant_name with
  | some s => if s = "" then t.rawName.getD "" else s
  | none => t.rawName.getD ""

theorem isNoiseTx_eq_false_no_blacklist (t : Txn) (h : isNoiseTx t = false) :
    NAME_BLACKLIST.any (fun b => hasSub (pyNorm (some (noiseNameArg t))) b) = false := by
  by_contra hb
  have hb' : NAME_BLACKLIST.any
      (fun b => hasSub (pyNorm (some (noiseNameArg t))) b) = true := by
    revert hb
    cases NAME_BLACKLIST.any (fun b => hasSub (pyNorm (some (noiseNameArg t))) b) <;> simp
  have : isNoiseTx t = true := by
    rw [isNoiseTx]
    rw [show (match t.merchant_name with
      | some s => if s = "" then t.rawName.getD "" else s
      | none => t.rawName.getD "") = noiseNameArg t from rfl]
    rw [if_pos hb']
  rw [this] at h
  cases h

theorem keepRecord_not_noise {since : Int} {t : Txn} (h : keepRecord since t = true) :
    isNoiseTx t = false := by
  rw [keepRecord, Bool.and_eq_true] at h
  have := h.2
  revert this
  cases hn : isNoiseTx t <;> simp

theorem groupPlan_display_not_blacklisted (g : String × List Txn) (p : MergePlan)
    (hp : groupPlan g = some p)
    (hmem : ∀ u ∈ g.2, u.merchant_name.isSome ∧ isNoiseTx u = false
      ∧ pyNorm u.merchant_name = g.1) :
    NAME_BLACKLIST.any (fun b => hasSub (pyNorm (some p.display)) b) = false := by
  obtain ⟨key, items⟩ := g
  simp only [groupPlan] at hp
  split_ifs at hp with h1 h2 h3 h4 h5
  cases hp
  rcases hfind : items.find? (fun it =>
      match it.merchant_name with
      | some s => !(s = "")
      | none => false) with _ | it
  · -- no truthy merchant name in the group: the display falls back to the
    -- key, which is the normalization of `some ""`, i.e. `""`.
    rw [hfind]
    have hne : items ≠ [] := by
      intro h
      rw [h] at h1
      exact h1 (by simp)
    rcases List.exists_cons_of_ne_nil hne with ⟨u, us, hus⟩
    have humem : u ∈ items := hus ▸ List.mem_cons_self _ _
    have hu := hmem u humem
    have hpredu := List.find?_eq_none.mp hfind u humem
    rcases hsome : u.merchant_name with _ | s
    · rw [hsome] at hu
      exact absurd hu.1 (by simp)
    · rw [hsome] at hpredu
      simp only [Bool.not_eq_true', decide_eq_true_eq] at hpredu
      have hs : s = "" := by
        by_contra hs
        exact hpredu (by simpa using hs)
      have hkey : key = "" := by
        have := hu.2.2
        rw [hsome, hs] at this
        exact this.symm.trans (by decide)
      simp only [Option.bind, Option.getD, hkey]
      decide
  · -- the display is the first truthy merchant name, whose normalization
    -- passed the noise filter.
    rw [hfind]
    have hit : it ∈ items := List.mem_of_find?_eq_some hfind
    have hpred := List.find?_some hfind
    have hu := hmem it hit
    rcases hsome : it.merchant_name with _ | s
    · rw [hsome] at hpred
      cases hpred
    · rw [hsome] at hpred
      simp only [Bool.not_eq_true', decide_eq_true_eq] at hpred
      have hs : s ≠ "" := by
        intro h
        rw [h] at hpred
        simp at hpred
      have harg : noiseNameArg it = s := by
        rw [noiseNameArg, hsome]
        show (if s = "" then it.rawName.getD "" else s) = s
        rw [if_neg hs]
      have hbl := isNoiseTx_eq_false_no_blacklist it hu.2.1
      rw [harg] at hbl
      simpa [hsome] using hbl

theorem mergeWithVendor_vendors (now : Int) (db : DB) (v : Vendor) (p : MergePlan) :
    (mergeWithVendor now db v p).vendors = db.vendors := by
  unfold mergeWithVendor
  rcases hsub : db.subs.find? (fun s => s.vendor_id = some v.id) with _ | s0
  all_goals rw [hsub]

theorem applyMerge_vendor_mem (now : Int) (db : DB) (p : MergePlan) (v : Vendor)
    (hv : v ∈ (applyMerge now db p).vendors) : v ∈ db.vendors ∨ v.name = p.display := by
  rw [applyMerge] at hv
  rcases hfound : db.vendors.find? (fun w => pyLower w.name = pyLower p.display) with _ | w
  all_goals rw [hfound] at hv
  · rw [mergeWithVendor_vendors] at hv
    rcases List.mem_append.mp hv with h | h
    · exact Or.inl h
    · simp only [List.mem_singleton] at h
      subst h
      exact Or.inr rfl
  · rw [mergeWithVendor_vendors] at hv
    exact Or.inl hv

theorem foldl_vendors_from_plans (now : Int) :
    ∀ (gs : List (String × List Txn)) (db : DB) (v : Vendor),
      v ∈ (gs.foldl (fun acc g => processGroup now acc g) db).vendors →
      v ∈ db.vendors ∨ ∃ g ∈ gs, ∃ p, groupPlan g = some p ∧ v.name = p.display := by
  intro gs
  induction gs with
  | nil => intro db v hv; exact Or.inl hv
  | cons g gs' ih =>
    intro db v hv
    rw [List.foldl_cons] at hv
    rcases ih (processGroup now db g) v hv with h | ⟨g', hg', p, hp, hname⟩
    · rw [processGroup] at h
      rcases hplan : groupPlan g with _ | p
      · rw [hplan] at h
        exact Or.inl h
      · rw [hplan] at h
        rcases applyMerge_vendor_mem now db p v h with h2 | h2
        · exact Or.inl h2
        · exact Or.inr ⟨g, List.mem_cons_self _ _, p, hplan, h2⟩
    · exact Or.inr ⟨g', List.mem_cons_of_mem _ hg', p, hp, hname⟩

/-- C8: noise exclusion.  (1) Every record of every candidate group passed
the noise filter: a record whose normalized name contains a blacklisted
substring, or whose metadata carries an excluded primary category, is in no
group.  (2) Consequently every vendor the run creates has a normalized name
free of blacklisted substrings — a blacklisted merchant never produces a
Vendor (and hence no Subscription, which is only ever created for the
resolved vendor). -/
theorem noise_excluded (db : DB) (now : Int) :
    (∀ g ∈ buildGroups ((db.txns.filter (fun t => t.merchant_name.isSome)).filter
        (keepRecord (now - WINDOW_DAYS))),
      ∀ t ∈ g.2, isNoiseTx t = false)
    ∧ (∀ v ∈ (detect_basic_subscriptions db now).vendors,
        v ∉ db.vendors →
        NAME_BLACKLIST.any (fun b => hasSub (pyNorm (some v.name)) b) = false) := by
  have hmemprop : ∀ g ∈ buildGroups ((db.txns.filter (fun t => t.merchant_name.isSome)).filter
        (keepRecord (now - WINDOW_DAYS))),
      ∀ u ∈ g.2, u.merchant_name.isSome ∧ isNoiseTx u = false
        ∧ pyNorm u.merchant_name = g.1 := by
    apply buildGroups_mem_prop
      (P := fun k u => u.merchant_name.isSome ∧ isNoiseTx u = false
        ∧ pyNorm u.merchant_name = k)
    intro t ht
    have h2 := List.mem_filter.mp ht
    have h1 := List.mem_filter.mp h2.1
    exact ⟨h1.2, keepRecord_not_noise h2.2, rfl⟩
  refine ⟨fun g hg t ht => (hmemprop g hg t ht).2.1, ?_⟩
  intro v hv hnot
  rw [detect_basic_subscriptions] at hv
  split_ifs at hv with h0
  · exact absurd hv hnot
  · rcases foldl_vendors_from_plans now _ db v hv with h | ⟨g, hg, p, hp, hname⟩
    · exact absurd h hnot
    · rw [hname]
      exact groupPlan_display_not_blacklisted g p hp (hmemprop g hg)

/-- Witness transactions for C8: Netflix (clean, monthly) and Starbucks
(blacklisted) records. -/
def wTxnsC8 : List Txn :=
  [⟨1, none, none, some "Netflix", some 16, some "USD", some "1970-01-01", none, none⟩,
   ⟨2, none, none, some "Netflix", some 16, some "USD", some "1970-01-31", none, none⟩,
   ⟨3, none, none, some "Netflix", some 16, some "USD", some "1970-03-02", none, none⟩,
   ⟨4, none, none, some "Starbucks", some 5, some "USD", some "1970-02-20", none, none⟩,
   ⟨5, none, none, some "Starbucks", some 5, some "USD", some "1970-02-25", none, none⟩,
   ⟨6, none, none, some "Starbucks", some 5, some "USD", some "1970-03-01", none, none⟩]

/-- Witness database for C8. -/
def wDBC8 : DB := ⟨wTxnsC8, [], [], 1, 1⟩

/-- Witness for C8 at the concrete seed: the only group is the Netflix one
(whose members are non-noise by the theorem), the created vendor is
"Netflix" with a blacklist-free normalized name, and no Starbucks vendor or
subscription exists. -/
theorem noise_excluded_witness :
    isNoiseTx (wTxnsC8.get ⟨0, by decide⟩) = false
    ∧ NAME_BLACKLIST.any
        (fun b => hasSub (pyNorm (some (⟨1, "Netflix", none⟩ : Vendor).name)) b) = false
    ∧ (detect_basic_subscriptions wDBC8 60).vendors.map (fun v => v.name) = ["Netflix"]
    ∧ (detect_basic_subscriptions wDBC8 60).subs.length = 1 := by
  refine ⟨?_, ?_, by decide, by decide⟩
  · exact (noise_excluded wDBC8 60).1
      (buildGroups ((wTxnsC8.filter (fun t => t.merchant_name.isSome)).filter
        (keepRecord (60 - WINDOW_DAYS)))).head!
      (by decide) (wTxnsC8.get ⟨0, by decide⟩) (by decide)
  · exact (noise_excluded wDBC8 60).2 ⟨1, "Netflix", none⟩ (by decide) (by decide)

/-! ### Claim C1: idempotence of a detection run (fixed run instant).

The development models the database well-formedness the schema's unique
constraints and autoincrement primary keys guarantee (`WF`), shows that one
run leaves every qualifying group "settled", and that a second run over the
same transaction set finds every group settled and fixes the state. -/

/-- Well-formedness of the persisted state, as the schema guarantees it:
primary keys are unique and below the autoincrement counters, and vendor
names are unique case-insensitively (`Vendor.name` is declared unique; the
detection core's case-insensitive lookup relies on it). -/
def WF (db : DB) : Prop :=
  (db.txns.map (fun t => t.id)).Nodup
  ∧ (db.vendors.map (fun v => v.id)).Nodup
  ∧ (∀ v ∈ db.vendors, v.id < db.nextVendorId)
  ∧ (db.vendors.map (fun v => pyLower v.name)).Nodup
  ∧ (db.subs.map (fun s => s.id)).Nodup
  ∧ (∀ s ∈ db.subs, s.id < db.nextSubId)

/-- Two merge plans that cannot interfere: distinct case-folded display
names (hence distinct vendors) and disjoint linked-record id sets. -/
def PlanCompat (p q : MergePlan) : Prop :=
  pyLower p.display ≠ pyLower q.display ∧ ∀ i ∈ p.itemIds, i ∉ q.itemIds

/-- Compatibility (`PlanCompat`) lifted to the optional plans of a group list. -/
def OptCompat (op oq : Option MergePlan) : Prop :=
  ∀ p q, op = some p → oq = some q → PlanCompat p q

/-- A plan is settled in a state: its vendor resolves, all its records are
linked to that vendor, and the vendor's subscription row already carries
the values the merge step writes (at the given run instant). -/
def Settled (now : Int) (S : DB) (p : MergePlan) : Prop :=
  ∃ v, S.vendors.find? (fun w => pyLower w.name = pyLower p.display) = some v
    ∧ (∀ t ∈ S.txns, t.id ∈ p.itemIds → t.vendor_id = some v.id)
    ∧ ∃ s, S.subs.find? (fun x => x.vendor_id = some v.id) = some s
      ∧ s.interval = some "monthly" ∧ mkRat 7 10 ≤ s.confidence
      ∧ s.next_expected = some p.nextExpected ∧ s.last_seen = now

/-- One step of the merge fold, at the plan level. -/
def applyPlan (now : Int) (db : DB) (op : Option MergePlan) : DB :=
  match op with
  | none => db
  | some p => applyMerge now db p

theorem processGroup_eq_applyPlan (now : Int) (db : DB) (g : String × List Txn) :
    processGroup now db g = applyPlan now db (groupPlan g) := rfl

/-! #### Computation lemmas for the merge step. -/

theorem applyMerge_found (now : Int) (db : DB) (p : MergePlan) (v : Vendor)
    (h : db.vendors.find? (fun w => pyLower w.name = pyLower p.display) = some v) :
    applyMerge now db p = mergeWithVendor now db v p := by
  rw [applyMerge, h]

theorem applyMerge_created (now : Int) (db : DB) (p : MergePlan)
    (h : db.vendors.find? (fun w => pyLower w.name = pyLower p.display) = none) :
    applyMerge now db p =
      mergeWithVendor now
        ⟨db.txns, db.vendors ++ [⟨db.nextVendorId, p.display, none⟩], db.subs,
          db.nextVendorId + 1, db.nextSubId⟩
        ⟨db.nextVendorId, p.display, none⟩ p := by
  rw [applyMerge, h]

theorem mergeWithVendor_nosub (now : Int) (db : DB) (v : Vendor) (p : MergePlan)
    (h : db.subs.find? (fun s => s.vendor_id = some v.id) = none) :
    mergeWithVendor now db v p =
      ⟨db.txns.map (linkTo v.id p.itemIds), db.vendors,
        db.subs ++ [newSubRow now v.id db.nextSubId p.nextExpected],
        db.nextVendorId, db.nextSubId + 1⟩ := by
  rw [mergeWithVendor, h]

theorem mergeWithVendor_withsub (now : Int) (db : DB) (v : Vendor) (p : MergePlan)
    (s0 : Subscription)
    (h : db.subs.find? (fun s => s.vendor_id = some v.id) = some s0) :
    mergeWithVendor now db v p =
      ⟨db.txns.map (linkTo v.id p.itemIds), db.vendors,
        updSubs now p.nextExpected s0.id db.subs,
        db.nextVendorId, db.nextSubId⟩ := by
  rw [mergeWithVendor, h]

/-! #### Small utilities. -/

theorem list_map_eq_self {α : Type} (l : List α) (f : α → α)
    (h : ∀ a ∈ l, f a = a) : l.map f = l := by
  induction l with
  | nil => rfl
  | cons a as' ih =>
    rw [List.map_cons, h a (List.mem_cons_self _ _),
      ih (fun a' ha' => h a' (List.mem_cons_of_mem _ ha'))]

theorem nodup_map_inj {α β : Type} {l : List α} {f : α → β}
    (h : (l.map f).Nodup) : ∀ a ∈ l, ∀ b ∈ l, f a = f b → a = b := by
  induction l with
  | nil => intro a ha; simp at ha
  | cons x xs ih =>
    intro a ha b hb hfab
    rw [List.map_cons, List.nodup_cons] at h
    rcases List.mem_cons.mp ha with rfl | ha' <;> rcases List.mem_cons.mp hb with rfl | hb'
    · rfl
    · exact absurd (hfab ▸ List.mem_map_of_mem f hb') h.1
    · exact absurd (hfab ▸ List.mem_map_of_mem f ha') h.1
    · exact ih h.2 a ha' b hb' hfab

theorem linkTo_id (vid : Nat) (ids : List Nat) (t : Txn) : (linkTo vid ids t).id = t.id :=
  (linkTo_txnSame vid ids t).1

theorem updSubRow_id (now : Int) (nextExp : String) (s : Subscription) :
    (updSubRow now nextExp s).id = s.id := rfl

theorem updSubRow_vendor (now : Int) (nextExp : String) (s : Subscription) :
    (updSubRow now nextExp s).vendor_id = s.vendor_id := rfl

/-! #### A settled plan's merge step is the identity. -/

theorem applyMerge_of_settled (now : Int) (S : DB) (p : MergePlan)
    (hwf : WF S) (hs : Settled now S p) : applyMerge now S p = S := by
  obtain ⟨v, hfind, hlink, s, hsfind, hint, hconf, hnext, hlast⟩ := hs
  rw [applyMerge_found now S p v hfind, mergeWithVendor_withsub now S v p s hsfind]
  have htx : S.txns.map (linkTo v.id p.itemIds) = S.txns := by
    apply list_map_eq_self
    intro t ht
    by_cases hmem : t.id ∈ p.itemIds
    · rw [linkTo, if_pos hmem, if_neg (fun hne => hne (hlink t ht hmem))]
    · rw [linkTo, if_neg hmem]
  have hsub : updSubs now p.nextExpected s.id S.subs = S.subs := by
    rw [updSubs]
    apply list_map_eq_self
    intro x hx
    by_cases hid : x.id = s.id
    · have hxseq : x = s :=
        nodup_map_inj hwf.2.2.2.2.1 x hx s (List.mem_of_find?_eq_some hsfind) hid
      rw [if_pos hid, hxseq]
      obtain ⟨sid, svid, sst, sint, sconf, sfs, sls, sne⟩ := s
      simp only at hint hconf hnext hlast
      rw [updSubRow]
      subst hint
      subst hnext
      subst hlast
      simp only [Subscription.mk.injEq, max_eq_left hconf]
    · rw [if_neg hid]
  rw [htx, hsub]

/-! #### One merge step settles its own plan. -/

theorem linkTo_links (vid : Nat) (ids : List Nat) (txns : List Txn) :
    ∀ t' ∈ txns.map (linkTo vid ids), t'.id ∈ ids → t'.vendor_id = some vid := by
  intro t' ht' hid
  rcases List.mem_map.mp ht' with ⟨t, _, rfl⟩
  rw [linkTo_id] at hid
  rw [linkTo, if_pos hid]
  by_cases hv : t.vendor_id ≠ some vid
  · rw [if_pos hv]
  · rw [if_neg hv]
    exact not_ne_iff.mp hv

theorem updSubs_vendor_pred (now : Int) (nextExp : String) (tid : Nat) (vid : Nat) :
    (fun x : Subscription =>
        decide ((if x.id = tid then updSubRow now nextExp x else x).vendor_id = some vid))
      = fun x : Subscription => decide (x.vendor_id = some vid) := by
  funext x
  by_cases h : x.id = tid
  · rw [if_pos h, updSubRow_vendor]
  · rw [if_neg h]

theorem applyMerge_settles (now : Int) (S : DB) (p : MergePlan) :
    Settled now (applyMerge now S p) p := by
  rcases hfound : S.vendors.find? (fun w => pyLower w.name = pyLower p.display) with _ | v
  · -- vendor created
    rw [applyMerge_created now S p hfound]
    set mid := (⟨S.txns, S.vendors ++ [⟨S.nextVendorId, p.display, none⟩], S.subs,
      S.nextVendorId + 1, S.nextSubId⟩ : DB) with hmid
    have hvfind : mid.vendors.find?
        (fun w => pyLower w.name = pyLower p.display)
          = some ⟨S.nextVendorId, p.display, none⟩ := by
      rw [hmid]
      show (S.vendors ++ [(⟨S.nextVendorId, p.display, none⟩ : Vendor)]).find?
          (fun w => pyLower w.name = pyLower p.display)
        = some (⟨S.nextVendorId, p.display, none⟩ : Vendor)
      rw [List.find?_append, hfound]
      simp [List.find?]
    rcases hsfind : mid.subs.find?
        (fun s => s.vendor_id = some (⟨S.nextVendorId, p.display, none⟩ : Vendor).id)
        with _ | s0
    · rw [mergeWithVendor_nosub now mid _ p hsfind]
      refine ⟨⟨S.nextVendorId, p.display, none⟩, hvfind, ?_, ?_⟩
      · exact linkTo_links _ p.itemIds mid.txns
      · refine ⟨newSubRow now S.nextVendorId mid.nextSubId p.nextExpected, ?_,
          rfl, le_refl _, rfl, rfl⟩
        show (mid.subs ++ [_]).find? _ = _
        rw [List.find?_append, hsfind]
        simp [List.find?, newSubRow]
    · rw [mergeWithVendor_withsub now mid _ p s0 hsfind]
      refine ⟨⟨S.nextVendorId, p.display, none⟩, hvfind, ?_, ?_⟩
      · exact linkTo_links _ p.itemIds mid.txns
      · refine ⟨updSubRow now p.nextExpected s0, ?_, rfl, le_max_right _ _, rfl, rfl⟩
        show (updSubs now p.nextExpected s0.id mid.subs).find? _ = _
        rw [updSubs, List.find?_map]
        rw [show ((fun s : Subscription => decide (s.vendor_id = some S.nextVendorId)) ∘
            (fun s => if s.id = s0.id then updSubRow now p.nextExpected s else s))
          = fun x : Subscription => decide (x.vendor_id = some S.nextVendorId) from
            updSubs_vendor_pred now p.nextExpected s0.id S.nextVendorId]
        rw [hsfind]
        simp
  · -- vendor found
    rw [applyMerge_found now S p v hfound]
    rcases hsfind : S.subs.find? (fun s => s.vendor_id = some v.id) with _ | s0
    · rw [mergeWithVendor_nosub now S v p hsfind]
      refine ⟨v, hfound, linkTo_links _ p.itemIds S.txns, ?_⟩
      refine ⟨newSubRow now v.id S.nextSubId p.nextExpected, ?_, rfl, le_refl _, rfl, rfl⟩
      show (S.subs ++ [_]).find? _ = _
      rw [List.find?_append, hsfind]
      simp [List.find?, newSubRow]
    · rw [mergeWithVendor_withsub now S v p s0 hsfind]
      refine ⟨v, hfound, linkTo_links _ p.itemIds S.txns, ?_⟩
      refine ⟨updSubRow now p.nextExpected s0, ?_, rfl, le_max_right _ _, rfl, rfl⟩
      show (updSubs now p.nextExpected s0.id S.subs).find? _ = _
      rw [updSubs, List.find?_map]
      rw [show ((fun s : Subscription => decide (s.vendor_id = some v.id)) ∘
          (fun s => if s.id = s0.id then updSubRow now p.nextExpected s else s))
        = fun x : Subscription => decide (x.vendor_id = some v.id) from
          updSubs_vendor_pred now p.nextExpected s0.id v.id]
      rw [hsfind]
      simp

/-! #### The merge step preserves well-formedness. -/

theorem map_id_linkTo (vid : Nat) (ids : List Nat) (txns : List Txn) :
    (txns.map (linkTo vid ids)).map (fun t => t.id) = txns.map (fun t => t.id) := by
  rw [List.map_map]
  exact List.map_congr_left (fun t _ => linkTo_id vid ids t)

theorem map_id_updSubs (now : Int) (nextExp : String) (tid : Nat)
    (subs : List Subscription) :
    (updSubs now nextExp tid subs).map (fun s => s.id) = subs.map (fun s => s.id) := by
  rw [updSubs, List.map_map]
  apply List.map_congr_left
  intro s _
  show (if s.id = tid then updSubRow now nextExp s else s).id = s.id
  by_cases h : s.id = tid
  · rw [if_pos h, updSubRow_id]
  · rw [if_neg h]

theorem mergeWithVendor_wf (now : Int) (T : DB) (v : Vendor) (p : MergePlan)
    (hwf : WF T) : WF (mergeWithVendor now T v p) := by
  obtain ⟨h1, h2, h3, h4, h5, h6⟩ := hwf
  rcases hsfind : T.subs.find? (fun s => s.vendor_id = some v.id) with _ | s0
  · rw [mergeWithVendor_nosub now T v p hsfind]
    refine ⟨?_, h2, h3, h4, ?_, ?_⟩
    · rw [show ((⟨T.txns.map (linkTo v.id p.itemIds), T.vendors,
        T.subs ++ [newSubRow now v.id T.nextSubId p.nextExpected],
        T.nextVendorId, T.nextSubId + 1⟩ : DB).txns) =
          T.txns.map (linkTo v.id p.itemIds) from rfl, map_id_linkTo]
      exact h1
    · show ((T.subs ++ [newSubRow now v.id T.nextSubId p.nextExpected]).map
        (fun s => s.id)).Nodup
      rw [List.map_append]
      rw [List.nodup_append]
      refine ⟨h5, by simp, ?_⟩
      intro x hx hx2
      simp only [newSubRow, List.map_cons, List.map_nil, List.mem_singleton] at hx2
      rcases List.mem_map.mp hx with ⟨s, hs, rfl⟩
      have := h6 s hs
      omega
    · intro s hs
      rcases List.mem_append.mp hs with h | h
      · have := h6 s h
        show s.id < T.nextSubId + 1
        omega
      · simp only [List.mem_singleton] at h
        subst h
        show T.nextSubId < T.nextSubId + 1
        omega
  · rw [mergeWithVendor_withsub now T v p s0 hsfind]
    refine ⟨?_, h2, h3, h4, ?_, ?_⟩
    · rw [show ((⟨T.txns.map (linkTo v.id p.itemIds), T.vendors,
        updSubs now p.nextExpected s0.id T.subs,
        T.nextVendorId, T.nextSubId⟩ : DB).txns) =
          T.txns.map (linkTo v.id p.itemIds) from rfl, map_id_linkTo]
      exact h1
    · show ((updSubs now p.nextExpected s0.id T.subs).map (fun s => s.id)).Nodup
      rw [map_id_updSubs]
      exact h5
    · intro s hs
      rcases List.mem_map.mp hs with ⟨x, hx, rfl⟩
      show (if x.id = s0.id then updSubRow now p.nextExpected x else x).id < T.nextSubId
      by_cases h : x.id = s0.id
      · rw [if_pos h, updSubRow_id]
        exact h6 x hx
      · rw [if_neg h]
        exact h6 x hx

theorem applyMerge_wf (now : Int) (S : DB) (p : MergePlan) (hwf : WF S) :
    WF (applyMerge now S p) := by
  rcases hfound : S.vendors.find? (fun w => pyLower w.name = pyLower p.display) with _ | v
  · rw [applyMerge_created now S p hfound]
    apply mergeWithVendor_wf
    obtain ⟨h1, h2, h3, h4, h5, h6⟩ := hwf
    refine ⟨h1, ?_, ?_, ?_, h5, h6⟩
    · show ((S.vendors ++ [(⟨S.nextVendorId, p.display, none⟩ : Vendor)]).map
        (fun v => v.id)).Nodup
      rw [List.map_append, List.nodup_append]
      refine ⟨h2, by simp, ?_⟩
      intro x hx hx2
      simp only [List.map_cons, List.map_nil, List.mem_singleton] at hx2
      rcases List.mem_map.mp hx with ⟨w, hw, rfl⟩
      have := h3 w hw
      omega
    · intro w hw
      rcases List.mem_append.mp hw with h | h
      · have := h3 w h
        show w.id < S.nextVendorId + 1
        omega
      · simp only [List.mem_singleton] at h
        subst h
        show S.nextVendorId < S.nextVendorId + 1
        omega
    · show ((S.vendors ++ [(⟨S.nextVendorId, p.display, none⟩ : Vendor)]).map
        (fun v => pyLower v.name)).Nodup
      rw [List.map_append, List.nodup_append]
      refine ⟨h4, by simp, ?_⟩
      intro x hx hx2
      simp only [List.map_cons, List.map_nil, List.mem_singleton] at hx2
      rcases List.mem_map.mp hx with ⟨w, hw, rfl⟩
      have := List.find?_eq_none.mp hfound w hw
      simp only [decide_eq_true_eq] at this
      exact this (hx2 ▸ rfl)
  · rw [applyMerge_found now S p v hfound]
    exact mergeWithVendor_wf now S v p hwf

/-! #### A settled plan stays settled through other groups' merges. -/

theorem settled_preserved_mwv (now : Int) (T : DB) (vq : Vendor) (q p : MergePlan)
    (v : Vendor) (s : Subscription)
    (hsubNodup : (T.subs.map (fun x => x.id)).Nodup)
    (hvfind : T.vendors.find? (fun w => pyLower w.name = pyLower p.display) = some v)
    (hlink : ∀ t ∈ T.txns, t.id ∈ p.itemIds → t.vendor_id = some v.id)
    (hsfind : T.subs.find? (fun x => x.vendor_id = some v.id) = some s)
    (hint : s.interval = some "monthly") (hconf : mkRat 7 10 ≤ s.confidence)
    (hnext : s.next_expected = some p.nextExpected) (hlast : s.last_seen = now)
    (hvne : vq.id ≠ v.id)
    (hids : ∀ i ∈ p.itemIds, i ∉ q.itemIds) :
    Settled now (mergeWithVendor now T vq q) p := by
  have htxns : ∀ t' ∈ T.txns.map (linkTo vq.id q.itemIds),
      t'.id ∈ p.itemIds → t'.vendor_id = some v.id := by
    intro t' ht' hpid
    rcases List.mem_map.mp ht' with ⟨t, ht, rfl⟩
    rw [linkTo_id] at hpid
    rw [linkTo, if_neg (hids t.id hpid)]
    exact hlink t ht hpid
  rcases hqsfind : T.subs.find? (fun x => x.vendor_id = some vq.id) with _ | s0
  · rw [mergeWithVendor_nosub now T vq q hqsfind]
    refine ⟨v, hvfind, htxns, s, ?_, hint, hconf, hnext, hlast⟩
    show (T.subs ++ [newSubRow now vq.id T.nextSubId q.nextExpected]).find?
      (fun x => x.vendor_id = some v.id) = some s
    rw [List.find?_append, hsfind]
    rfl
  · rw [mergeWithVendor_withsub now T vq q s0 hqsfind]
    refine ⟨v, hvfind, htxns, s, ?_, hint, hconf, hnext, hlast⟩
    show (updSubs now q.nextExpected s0.id T.subs).find?
      (fun x => x.vendor_id = some v.id) = some s
    rw [updSubs, List.find?_map,
      show ((fun x : Subscription => decide (x.vendor_id = some v.id)) ∘
          (fun x => if x.id = s0.id then updSubRow now q.nextExpected x else x))
        = fun x : Subscription => decide (x.vendor_id = some v.id) from
          updSubs_vendor_pred now q.nextExpected s0.id v.id,
      hsfind]
    have hne : ¬(s.id = s0.id) := by
      intro h
      have hs0mem : s0 ∈ T.subs := List.mem_of_find?_eq_some hqsfind
      have hsmem : s ∈ T.subs := List.mem_of_find?_eq_some hsfind
      have heq : s = s0 := nodup_map_inj hsubNodup s hsmem s0 hs0mem h
      have h1 := List.find?_some hsfind
      have h2 := List.find?_some hqsfind
      simp only [decide_eq_true_eq] at h1 h2
      rw [heq, h2] at h1
      exact hvne (Option.some.inj h1)
    show some (if s.id = s0.id then updSubRow now q.nextExpected s else s) = some s
    rw [if_neg hne]

theorem settled_preserved (now : Int) (S : DB) (p q : MergePlan)
    (hwf : WF S) (hs : Settled now S p) (hcomp : PlanCompat p q) :
    Settled now (applyMerge now S q) p := by
  obtain ⟨v, hfind, hlink, s, hsfind, hint, hconf, hnext, hlast⟩ := hs
  have hvmem : v ∈ S.vendors := List.mem_of_find?_eq_some hfind
  rcases hqfound : S.vendors.find? (fun w => pyLower w.name = pyLower q.display) with _ | vq
  · rw [applyMerge_created now S q hqfound]
    apply settled_preserved_mwv now _ _ q p v s
    · exact hwf.2.2.2.2.1
    · show (S.vendors ++ [(⟨S.nextVendorId, q.display, none⟩ : Vendor)]).find?
        (fun w => pyLower w.name = pyLower p.display) = some v
      rw [List.find?_append, hfind]
      rfl
    · exact hlink
    · exact hsfind
    · exact hint
    · exact hconf
    · exact hnext
    · exact hlast
    · have := hwf.2.2.1 v hvmem
      show S.nextVendorId ≠ v.id
      omega
    · exact hcomp.2
  · rw [applyMerge_found now S q vq hqfound]
    apply settled_preserved_mwv now S vq q p v s
    · exact hwf.2.2.2.2.1
    · exact hfind
    · exact hlink
    · exact hsfind
    · exact hint
    · exact hconf
    · exact hnext
    · exact hlast
    · intro h
      have hvqmem : vq ∈ S.vendors := List.mem_of_find?_eq_some hqfound
      have heq : vq = v := nodup_map_inj hwf.2.1 vq hvqmem v hvmem h
      have h1 := List.find?_some hfind
      have h2 := List.find?_some hqfound
      simp only [decide_eq_true_eq] at h1 h2
      rw [heq] at h2
      exact hcomp.1 (h1 ▸ h2 ▸ rfl)
    · exact hcomp.2

/-! #### Folding the plan list. -/

theorem applyPlan_wf (now : Int) (S : DB) (op : Option MergePlan) (hwf : WF S) :
    WF (applyPlan now S op) := by
  rcases op with _ | p
  · exact hwf
  · exact applyMerge_wf now S p hwf

theorem foldPlans_wf (now : Int) :
    ∀ (ops : List (Option MergePlan)) (S : DB), WF S →
      WF (ops.foldl (applyPlan now) S) := by
  intro ops
  induction ops with
  | nil => intro S h; exact h
  | cons op rest ih =>
    intro S h
    rw [List.foldl_cons]
    exact ih _ (applyPlan_wf now S op h)

theorem foldPlans_preserves_settled (now : Int) :
    ∀ (ops : List (Option MergePlan)) (S : DB) (p₀ : MergePlan), WF S →
      Settled now S p₀ →
      (∀ oq ∈ ops, ∀ q, oq = some q → PlanCompat p₀ q) →
      Settled now (ops.foldl (applyPlan now) S) p₀ := by
  intro ops
  induction ops with
  | nil => intro S p₀ _ hs _; exact hs
  | cons op rest ih =>
    intro S p₀ hwf hs hcomp
    rw [List.foldl_cons]
    have hstep : Settled now (applyPlan now S op) p₀ := by
      rcases hop : op with _ | q
      · exact hs
      · exact settled_preserved now S p₀ q hwf hs
          (hcomp op (List.mem_cons_self _ _) q hop)
    exact ih _ p₀ (applyPlan_wf now S op hwf) hstep
      (fun oq hq q hqq => hcomp oq (List.mem_cons_of_mem _ hq) q hqq)

theorem foldPlans_settles (now : Int) :
    ∀ (ops : List (Option MergePlan)) (S : DB), WF S → ops.Pairwise OptCompat →
      ∀ op ∈ ops, ∀ p, op = some p →
        Settled now (ops.foldl (applyPlan now) S) p := by
  intro ops
  induction ops with
  | nil => intro S _ _ op hop; simp at hop
  | cons op0 rest ih =>
    intro S hwf hpw op hop p hp
    rw [List.foldl_cons]
    rcases List.mem_cons.mp hop with rfl | hop'
    · subst hp
      have hset : Settled now (applyPlan now S (some p)) p := applyMerge_settles now S p
      exact foldPlans_preserves_settled now rest _ p
        (applyPlan_wf now S (some p) hwf) hset
        (fun oq hq q hqq => (List.pairwise_cons.mp hpw).1 oq hq p q rfl hqq)
    · exact ih _ (applyPlan_wf now S op0 hwf) (List.pairwise_cons.mp hpw).2 op hop' p hp

theorem foldPlans_fix (now : Int) :
    ∀ (ops : List (Option MergePlan)) (S : DB), WF S →
      (∀ op ∈ ops, ∀ p, op = some p → Settled now S p) →
      ops.foldl (applyPlan now) S = S := by
  intro ops
  induction ops with
  | nil => intro S _ _; rfl
  | cons op rest ih =>
    intro S hwf hall
    rw [List.foldl_cons]
    have hstep : applyPlan now S op = S := by
      rcases hop : op with _ | p
      · rfl
      · exact applyMerge_of_settled now S p hwf
          (hall op (List.mem_cons_self _ _) p hop)
    rw [hstep]
    exact ih S hwf (fun oq hq q hqq => hall oq (List.mem_cons_of_mem _ hq) q hqq)

/-! #### Distinctness of the group plans. -/

theorem insertByDate_perm (t : Txn) :
    ∀ us : List Txn, (insertByDate t us).Perm (t :: us) := by
  intro us
  induction us with
  | nil => exact List.Perm.refl _
  | cons u us' ih =>
    rw [insertByDate]
    by_cases h : charListLe (dateKey t).data (dateKey u).data
    · rw [if_pos h]
    · rw [if_neg h]
      exact (List.Perm.cons u ih).trans (List.Perm.swap t u us')

theorem sortByDate_perm : ∀ l : List Txn, (sortByDate l).Perm l := by
  intro l
  induction l with
  | nil => exact List.Perm.refl _
  | cons t ts ih =>
    rw [sortByDate]
    exact (insertByDate_perm t (sortByDate ts)).trans (List.Perm.cons t ih)

theorem groupPlan_itemIds (g : String × List Txn) (p : MergePlan)
    (hp : groupPlan g = some p) : p.itemIds.Perm (g.2.map (fun t => t.id)) := by
  obtain ⟨key, items⟩ := g
  simp only [groupPlan] at hp
  split_ifs at hp
  cases hp
  exact (sortByDate_perm items).map (fun t => t.id)

theorem groupPlan_display_norm (g : String × List Txn) (p : MergePlan)
    (hp : groupPlan g = some p)
    (hmem : ∀ u ∈ g.2, u.merchant_name.isSome ∧ pyNorm u.merchant_name = g.1) :
    pyNorm (some p.display) = g.1 := by
  obtain ⟨key, items⟩ := g
  simp only [groupPlan] at hp
  split_ifs at hp with h1 h2 h3 h4 h5
  cases hp
  rcases hfind : items.find? (fun it =>
      match it.merchant_name with
      | some s => !(s = "")
      | none => false) with _ | it
  · rw [hfind]
    have hne : items ≠ [] := by
      intro h
      rw [h] at h1
      exact h1 (by simp)
    rcases List.exists_cons_of_ne_nil hne with ⟨u, us, hus⟩
    have humem : u ∈ items := hus ▸ List.mem_cons_self _ _
    have hu := hmem u humem
    have hpredu := List.find?_eq_none.mp hfind u humem
    rcases hsome : u.merchant_name with _ | s
    · rw [hsome] at hu
      exact absurd hu.1 (by simp)
    · rw [hsome] at hpredu
      simp only [Bool.not_eq_true', decide_eq_true_eq] at hpredu
      have hs : s = "" := by
        by_contra hs
        exact hpredu (by simpa using hs)
      have hkey : key = "" := by
        have := hu.2
        rw [hsome, hs] at this
        exact this.symm.trans (by decide)
      simp only [Option.bind, Option.getD, hkey]
      decide
  · rw [hfind]
    have hit : it ∈ items := List.mem_of_find?_eq_some hfind
    have hu := hmem it hit
    rcases hsome : it.merchant_name with _ | s
    · rw [hsome] at hu
      exact absurd hu.1 (by simp)
    · show pyNorm (some (((some it).bind (fun x => x.merchant_name)).getD key)) = key
      rw [show ((some it).bind (fun x => x.merchant_name)) = it.merchant_name from rfl,
        hsome]
      show pyNorm (some s) = key
      have := hu.2
      rw [hsome] at this
      exact this

theorem addToGroups_keys (gs : List (String × List Txn)) (key : String) (t : Txn) :
    (addToGroups gs key t).map (fun g => g.1)
      = if key ∈ gs.map (fun g => g.1) then gs.map (fun g => g.1)
        else gs.map (fun g => g.1) ++ [key] := by
  induction gs with
  | nil => simp [addToGroups]
  | cons g0 rest ih =>
    obtain ⟨k0, l0⟩ := g0
    by_cases hk : k0 = key
    · rw [show addToGroups ((k0, l0) :: rest) key t = (k0, l0 ++ [t]) :: rest by
        simp [addToGroups, hk]]
      rw [if_pos (by simp [hk])]
      simp
    · rw [show addToGroups ((k0, l0) :: rest) key t
          = (k0, l0) :: addToGroups rest key t by simp [addToGroups, hk]]
      rw [List.map_cons, ih]
      by_cases hmem : key ∈ rest.map (fun g => g.1)
      · rw [if_pos hmem, if_pos (by simp [hmem]), List.map_cons]
      · rw [if_neg hmem, if_neg (by
          simp only [List.map_cons, List.mem_cons]
          rintro (h | h)
          · exact hk h.symm
          · exact hmem h), List.map_cons]
        rfl

theorem buildGroups_keys_nodup_aux :
    ∀ (txns : List Txn) (gs0 : List (String × List Txn)),
      (gs0.map (fun g => g.1)).Nodup →
      ((txns.foldl (fun gs t => addToGroups gs (pyNorm t.merchant_name) t) gs0).map
        (fun g => g.1)).Nodup := by
  intro txns
  induction txns with
  | nil => intro gs0 h; exact h
  | cons t ts ih =>
    intro gs0 h
    rw [List.foldl_cons]
    apply ih
    rw [addToGroups_keys]
    by_cases hmem : pyNorm t.merchant_name ∈ gs0.map (fun g => g.1)
    · rw [if_pos hmem]; exact h
    · rw [if_neg hmem, List.nodup_append]
      exact ⟨h, by simp, by
        intro x hx hx2
        simp only [List.mem_singleton] at hx2
        exact hmem (hx2 ▸ hx)⟩

theorem buildGroups_keys_nodup (txns : List Txn) :
    ((buildGroups txns).map (fun g => g.1)).Nodup := by
  rw [buildGroups]
  exact buildGroups_keys_nodup_aux txns [] (by simp)

theorem addToGroups_flatMap_perm (gs : List (String × List Txn)) (key : String) (t : Txn) :
    ((addToGroups gs key t).flatMap (fun g => g.2)).Perm
      (gs.flatMap (fun g => g.2) ++ [t]) := by
  induction gs with
  | nil => simp [addToGroups]
  | cons g0 rest ih =>
    obtain ⟨k0, l0⟩ := g0
    by_cases hk : k0 = key
    · rw [show addToGroups ((k0, l0) :: rest) key t = (k0, l0 ++ [t]) :: rest by
        simp [addToGroups, hk]]
      show ((l0 ++ [t]) ++ rest.flatMap (fun g => g.2)).Perm
        ((l0 ++ rest.flatMap (fun g => g.2)) ++ [t])
      rw [List.append_assoc l0 [t] (rest.flatMap (fun g => g.2)),
        List.append_assoc l0 (rest.flatMap (fun g => g.2)) [t]]
      exact List.Perm.append_left l0 List.perm_append_comm
    · rw [show addToGroups ((k0, l0) :: rest) key t
          = (k0, l0) :: addToGroups rest key t by simp [addToGroups, hk]]
      show (l0 ++ (addToGroups rest key t).flatMap (fun g => g.2)).Perm
        ((l0 ++ rest.flatMap (fun g => g.2)) ++ [t])
      rw [List.append_assoc l0 (rest.flatMap (fun g => g.2)) [t]]
      exact List.Perm.append_left l0 ih

theorem buildGroups_flatMap_perm_aux :
    ∀ (txns : List Txn) (gs0 : List (String × List Txn)),
      ((txns.foldl (fun gs t => addToGroups gs (pyNorm t.merchant_name) t) gs0).flatMap
        (fun g => g.2)).Perm (gs0.flatMap (fun g => g.2) ++ txns) := by
  intro txns
  induction txns with
  | nil => intro gs0; simp
  | cons t ts ih =>
    intro gs0
    rw [List.foldl_cons]
    refine (ih (addToGroups gs0 (pyNorm t.merchant_name) t)).trans ?_
    have h1 := addToGroups_flatMap_perm gs0 (pyNorm t.merchant_name) t
    refine (h1.append_right ts).trans ?_
    rw [List.append_assoc]
    exact List.Perm.append_left _ (List.Perm.refl _)

theorem buildGroups_flatMap_perm (txns : List Txn) :
    ((buildGroups txns).flatMap (fun g => g.2)).Perm txns := by
  rw [buildGroups]
  have := buildGroups_flatMap_perm_aux txns []
  simpa using this

theorem buildGroups_pairwise_disjoint_ids (txns : List Txn)
    (hids : (txns.map (fun t => t.id)).Nodup) :
    (buildGroups txns).Pairwise
      (fun g h => ∀ i, i ∈ g.2.map (fun t => t.id) → i ∉ h.2.map (fun t => t.id)) := by
  have hperm : (((buildGroups txns).flatMap (fun g => g.2)).map (fun t => t.id)).Perm
      (txns.map (fun t => t.id)) := (buildGroups_flatMap_perm txns).map _
  have hnd : (((buildGroups txns).flatMap (fun g => g.2)).map (fun t => t.id)).Nodup :=
    hperm.nodup_iff.mpr hids
  rw [List.map_flatMap] at hnd
  have := (List.nodup_flatMap.mp hnd).2
  refine this.imp ?_
  intro g h hgh
  intro i hig hih
  exact hgh hig hih

/-! #### The plans of a run depend only on the `vendor_id`-independent
projection of the transactions. -/

theorem isNoiseTx_congr {t u : Txn} (h1 : u.merchant_name = t.merchant_name)
    (h2 : u.rawName = t.rawName) (h3 : u.rawPfcPrimary = t.rawPfcPrimary) :
    isNoiseTx u = isNoiseTx t := by
  rw [isNoiseTx, isNoiseTx, h1, h2, h3]

theorem keepRecord_congr {t u : Txn} (since : Int) (h0 : u.date = t.date)
    (h1 : u.merchant_name = t.merchant_name) (h2 : u.rawName = t.rawName)
    (h3 : u.rawPfcPrimary = t.rawPfcPrimary) :
    keepRecord since u = keepRecord since t := by
  rw [keepRecord, keepRecord, h0, isNoiseTx_congr h1 h2 h3]

theorem addToGroups_map (F : Txn → Txn) :
    ∀ (gs : List (String × List Txn)) (k : String) (t : Txn),
      addToGroups (gs.map (fun g => (g.1, g.2.map F))) k (F t)
        = (addToGroups gs k t).map (fun g => (g.1, g.2.map F)) := by
  intro gs
  induction gs with
  | nil => intro k t; rfl
  | cons g0 rest ih =>
    intro k t
    obtain ⟨k0, l0⟩ := g0
    by_cases hk : k0 = k
    · simp only [List.map_cons, addToGroups, if_pos hk, List.map_append, List.map_cons,
        List.map_nil]
    · simp only [List.map_cons, addToGroups, if_neg hk, ih]

theorem buildGroups_map (F : Txn → Txn)
    (hkey : ∀ t, (F t).merchant_name = t.merchant_name) :
    ∀ (txns : List Txn),
      buildGroups (txns.map F) = (buildGroups txns).map (fun g => (g.1, g.2.map F)) := by
  have aux : ∀ (txns : List Txn) (gs0 : List (String × List Txn)),
      (txns.map F).foldl (fun gs t => addToGroups gs (pyNorm t.merchant_name) t)
        (gs0.map (fun g => (g.1, g.2.map F)))
      = (txns.foldl (fun gs t => addToGroups gs (pyNorm t.merchant_name) t) gs0).map
          (fun g => (g.1, g.2.map F)) := by
    intro txns
    induction txns with
    | nil => intro gs0; rfl
    | cons t ts ih =>
      intro gs0
      rw [List.map_cons, List.foldl_cons, List.foldl_cons, hkey t, addToGroups_map F, ih]
  intro txns
  rw [buildGroups, buildGroups]
  have := aux txns []
  simpa using this

theorem insertByDate_map (F : Txn → Txn) (hdate : ∀ t, (F t).date = t.date) (t : Txn) :
    ∀ us : List Txn, insertByDate (F t) (us.map F) = (insertByDate t us).map F := by
  intro us
  induction us with
  | nil => rfl
  | cons u us' ih =>
    rw [List.map_cons, insertByDate, insertByDate]
    have hkeyt : dateKey (F t) = dateKey t := by rw [dateKey, dateKey, hdate]
    have hkeyu : dateKey (F u) = dateKey u := by rw [dateKey, dateKey, hdate]
    rw [hkeyt, hkeyu]
    by_cases h : charListLe (dateKey t).data (dateKey u).data
    · rw [if_pos h, if_pos h, List.map_cons, List.map_cons]
    · rw [if_neg h, if_neg h, List.map_cons, ih]

theorem sortByDate_map (F : Txn → Txn) (hdate : ∀ t, (F t).date = t.date) :
    ∀ items : List Txn, sortByDate (items.map F) = (sortByDate items).map F := by
  intro items
  induction items with
  | nil => rfl
  | cons t ts ih =>
    rw [List.map_cons, sortByDate, sortByDate, ih, insertByDate_map F hdate]

theorem groupPlan_map (F : Txn → Txn) (hF : ∀ t, TxnSame t (F t))
    (key : String) (items : List Txn) :
    groupPlan (key, items.map F) = groupPlan (key, items) := by
  have hid : ∀ t, (F t).id = t.id := fun t => (hF t).1
  have hname : ∀ t, (F t).merchant_name = t.merchant_name := fun t => (hF t).2.2.1
  have hamount : ∀ t, (F t).amount = t.amount := fun t => (hF t).2.2.2.1
  have hdate : ∀ t, (F t).date = t.date := fun t => (hF t).2.2.2.2.2.1
  have hlen : (items.map F).length = items.length := List.length_map _ _
  have hfind : (items.map F).find? (fun it =>
      match it.merchant_name with
      | some s => !(s = "")
      | none => false)
      = Option.map F (items.find? (fun it =>
        match it.merchant_name with
        | some s => !(s = "")
        | none => false)) := by
    rw [List.find?_map]
    have hpred : ((fun it : Txn =>
        match it.merchant_name with
        | some s => !(s = "")
        | none => false) ∘ F)
        = (fun it : Txn =>
          match it.merchant_name with
          | some s => !(s = "")
          | none => false) := by
      funext it
      show (match (F it).merchant_name with
        | some s => !(s = "")
        | none => false)
        = (match it.merchant_name with
          | some s => !(s = "")
          | none => false)
      rw [hname]
    rw [hpred]
  have hdisplay : (((items.map F).find? (fun it =>
      match it.merchant_name with
      | some s => !(s = "")
      | none => false)).bind (fun it => it.merchant_name)).getD key
      = ((items.find? (fun it =>
        match it.merchant_name with
        | some s => !(s = "")
        | none => false)).bind (fun it => it.merchant_name)).getD key := by
    rw [hfind]
    rcases hfe : items.find? (fun it =>
      match it.merchant_name with
      | some s => !(s = "")
      | none => false) with _ | it
    all_goals rw [hfe]
    · rfl
    · show ((some (F it)).bind (fun x => x.merchant_name)).getD key
        = ((some it).bind (fun x => x.merchant_name)).getD key
      rw [show ((some (F it)).bind (fun x => x.merchant_name)) = (F it).merchant_name
        from rfl, hname]
      rfl
  have hsort : sortByDate (items.map F) = (sortByDate items).map F :=
    sortByDate_map F hdate items
  have hdates : (sortByDate (items.map F)).filterMap (fun it => it.date.bind parseDateDays)
      = (sortByDate items).filterMap (fun it => it.date.bind parseDateDays) := by
    rw [hsort, List.filterMap_map]
    congr 1
    funext it
    show (F it).date.bind parseDateDays = it.date.bind parseDateDays
    rw [hdate]
  have hamounts : (sortByDate (items.map F)).map (fun it => it.amount)
      = (sortByDate items).map (fun it => it.amount) := by
    rw [hsort, List.map_map]
    apply List.map_congr_left
    intro it _
    exact hamount it
  have hids : (sortByDate (items.map F)).map (fun it => it.id)
      = (sortByDate items).map (fun it => it.id) := by
    rw [hsort, List.map_map]
    apply List.map_congr_left
    intro it _
    exact hid it
  simp only [groupPlan, hlen, hdisplay, hdates, hamounts, hids]

theorem plans_pairwise_compat (txns : List Txn)
    (hids : (txns.map (fun t => t.id)).Nodup)
    (hmer : ∀ t ∈ txns, t.merchant_name.isSome) :
    ((buildGroups txns).map groupPlan).Pairwise OptCompat := by
  have hkeys : (buildGroups txns).Pairwise (fun g h => g.1 ≠ h.1) :=
    List.pairwise_map.mp (buildGroups_keys_nodup txns)
  have hdisj := buildGroups_pairwise_disjoint_ids txns hids
  have hmemprop : ∀ g ∈ buildGroups txns, ∀ u ∈ g.2,
      u.merchant_name.isSome ∧ pyNorm u.merchant_name = g.1 :=
    buildGroups_mem_prop
      (fun k u => u.merchant_name.isSome ∧ pyNorm u.merchant_name = k)
      txns (fun t ht => ⟨hmer t ht, rfl⟩)
  apply List.pairwise_map.mpr
  apply List.Pairwise.imp_of_mem ?_ (hkeys.and hdisj)
  intro g h hg hh hr p q hp hq
  constructor
  · intro heq
    have h1 := groupPlan_display_norm g p hp (hmemprop g hg)
    have h2 := groupPlan_display_norm h q hq (hmemprop h hh)
    exact hr.1 (h1 ▸ h2 ▸ pyNorm_eq_of_pyLower_eq heq)
  · intro i hip hiq
    have hpids := groupPlan_itemIds g p hp
    have hqids := groupPlan_itemIds h q hq
    exact hr.2 i (hpids.mem_iff.mp hip) (hqids.mem_iff.mp hiq)

/-! #### Assembling the idempotence theorem. -/

theorem detect_nonempty (db : DB) (now : Int)
    (h : ¬ db.txns.filter (fun t => t.merchant_name.isSome) = []) :
    detect_basic_subscriptions db now
      = (buildGroups ((db.txns.filter (fun t => t.merchant_name.isSome)).filter
          (keepRecord (now - WINDOW_DAYS)))).foldl
            (fun acc g => processGroup now acc g) db := by
  simp only [detect_basic_subscriptions]
  rw [if_neg h]

theorem foldl_processGroup_as_plans (now : Int) (gs : List (String × List Txn)) (db : DB) :
    gs.foldl (fun acc g => processGroup now acc g) db
      = (gs.map groupPlan).foldl (applyPlan now) db := by
  rw [List.foldl_map]
  rw [show (fun (acc : DB) (g : String × List Txn) => applyPlan now acc (groupPlan g))
    = fun acc g => processGroup now acc g from
      funext fun acc => funext fun g => (processGroup_eq_applyPlan now acc g).symm]

theorem filter_isSome_map_congr (txns : List Txn) (F : Txn → Txn)
    (hF : ∀ t, TxnSame t (F t)) :
    (txns.map F).filter (fun t => t.merchant_name.isSome)
      = (txns.filter (fun t => t.merchant_name.isSome)).map F := by
  rw [List.filter_map]
  congr 1
  apply List.filter_congr
  intro t _
  show (F t).merchant_name.isSome = t.merchant_name.isSome
  rw [(hF t).2.2.1]

theorem filter_keep_map_congr (txns : List Txn) (F : Txn → Txn) (since : Int)
    (hF : ∀ t, TxnSame t (F t)) :
    (txns.map F).filter (keepRecord since)
      = (txns.filter (keepRecord since)).map F := by
  rw [List.filter_map]
  congr 1
  apply List.filter_congr
  intro t _
  show keepRecord since (F t) = keepRecord since t
  exact keepRecord_congr since (hF t).2.2.2.2.2.1 (hF t).2.2.1
    (hF t).2.2.2.2.2.2.1 (hF t).2.2.2.2.2.2.2

/-- C1: a detection run is idempotent at a fixed run instant.  Starting
from any well-formed state (unique primary keys below the autoincrement
counters, case-insensitively unique vendor names — what the schema
guarantees), running `detect_basic_subscriptions` a second time over the
unchanged transaction set creates no new Vendor or Subscription rows and
changes no field of any row: the second run returns the first run's state
exactly. -/
theorem detect_idempotent (db : DB) (now : Int) (hwf : WF db) :
    detect_basic_subscriptions (detect_basic_subscriptions db now) now
      = detect_basic_subscriptions db now := by
  by_cases h0 : db.txns.filter (fun t => t.merchant_name.isSome) = []
  · have h1 : detect_basic_subscriptions db now = db := by
      simp only [detect_basic_subscriptions]
      rw [if_pos h0]
    rw [h1, h1]
  · obtain ⟨⟨F, hFtx, hFs⟩, _, _⟩ := detect_evolve db now
    have hfilter1 : (detect_basic_subscriptions db now).txns.filter
        (fun t => t.merchant_name.isSome)
        = (db.txns.filter (fun t => t.merchant_name.isSome)).map F := by
      rw [hFtx, filter_isSome_map_congr db.txns F hFs]
    have hne2 : ¬ (detect_basic_subscriptions db now).txns.filter
        (fun t => t.merchant_name.isSome) = [] := by
      rw [hfilter1]
      intro h
      exact h0 (List.map_eq_nil_iff.mp h)
    -- the second run's eligible records are the renamed first-run records
    have heligible : ((detect_basic_subscriptions db now).txns.filter
        (fun t => t.merchant_name.isSome)).filter (keepRecord (now - WINDOW_DAYS))
        = (((db.txns.filter (fun t => t.merchant_name.isSome)).filter
            (keepRecord (now - WINDOW_DAYS))).map F) := by
      rw [hfilter1, filter_keep_map_congr _ F _ hFs]
    -- hence the same plans
    have hplans : (buildGroups (((detect_basic_subscriptions db now).txns.filter
        (fun t => t.merchant_name.isSome)).filter (keepRecord (now - WINDOW_DAYS)))).map
          groupPlan
        = (buildGroups ((db.txns.filter (fun t => t.merchant_name.isSome)).filter
            (keepRecord (now - WINDOW_DAYS)))).map groupPlan := by
      rw [heligible, buildGroups_map F (fun t => (hFs t).2.2.1), List.map_map]
      apply List.map_congr_left
      intro g _
      show groupPlan (g.1, g.2.map F) = groupPlan g
      rw [groupPlan_map F hFs g.1 g.2]
    -- first run as a plan fold
    have hrun1 : detect_basic_subscriptions db now
        = (((buildGroups ((db.txns.filter (fun t => t.merchant_name.isSome)).filter
            (keepRecord (now - WINDOW_DAYS)))).map groupPlan).foldl (applyPlan now) db) := by
      rw [detect_nonempty db now h0, foldl_processGroup_as_plans]
    -- eligible records have distinct ids and a merchant name
    have helsub : ((db.txns.filter (fun t => t.merchant_name.isSome)).filter
        (keepRecord (now - WINDOW_DAYS))).Sublist db.txns :=
      (List.filter_sublist _).trans (List.filter_sublist _)
    have helids : (((db.txns.filter (fun t => t.merchant_name.isSome)).filter
        (keepRecord (now - WINDOW_DAYS))).map (fun t => t.id)).Nodup :=
      (helsub.map (fun t => t.id)).nodup hwf.1
    have helmer : ∀ t ∈ (db.txns.filter (fun t => t.merchant_name.isSome)).filter
        (keepRecord (now - WINDOW_DAYS)), t.merchant_name.isSome := by
      intro t ht
      exact (List.mem_filter.mp (List.mem_filter.mp ht).1).2
    have hpw := plans_pairwise_compat _ helids helmer
    -- every plan is settled after the first run
    have hsettled : ∀ op ∈ ((buildGroups ((db.txns.filter
        (fun t => t.merchant_name.isSome)).filter
          (keepRecord (now - WINDOW_DAYS)))).map groupPlan),
        ∀ p, op = some p → Settled now (detect_basic_subscriptions db now) p := by
      intro op hop p hp
      rw [hrun1]
      exact foldPlans_settles now _ db hwf hpw op hop p hp
    have hwf1 : WF (detect_basic_subscriptions db now) := by
      rw [hrun1]
      exact foldPlans_wf now _ db hwf
    -- the second run applies the same plans to a state where they are settled
    rw [detect_nonempty _ now hne2, foldl_processGroup_as_plans, hplans]
    exact foldPlans_fix now _ _ hwf1 hsettled

/-- Witness for C1: the concrete Netflix/Starbucks seed is well-formed and
a second detection run at the same instant fixes the first run's state. -/
theorem detect_idempotent_witness :
    WF wDBC8
    ∧ detect_basic_subscriptions (detect_basic_subscriptions wDBC8 60) 60
      = detect_basic_subscriptions wDBC8 60 :=
  ⟨by unfold WF; decide, detect_idempotent wDBC8 60 (by unfold WF; decide)⟩
